import Mathlib

/-!
Verification of the Petri net reachability analysis engine of
src/petri_net/reachability.rs. The Rust source is shallowly embedded:
machine integers become Nat, the BTreeMap inside Marking becomes a sorted
association list, the HashMap marking table becomes an insertion-ordered
association list (and, for the determinism claim, a seeded bucket table),
and the BFS while-loop becomes a fuel-indexed loop. Types and functions
from the sibling module (PlaceId, TransitionId, Arc, PetriNet, the weight
and capacity lookups) are not part of the given sources and are modelled
from the spec where noted.
-/

set_option maxHeartbeats 1000000

/-- Token lookup in an association list, returning 0 for an absent key.
This embeds the BTreeMap::get call in MarkingFn::get together with
unwrap_or_default. -/
def lookupTokens : List (Nat × Nat) → Nat → Nat
  | [], _ => 0
  | e :: rest, p => if e.1 = p then e.2 else lookupTokens rest p

/-- Sorted insertion embedding MarkingFn::set for Marking: a zero token
count removes the key, a nonzero count inserts or overwrites it, keeping
keys strictly sorted (the BTreeMap representation invariant). -/
def insertTokens : List (Nat × Nat) → Nat → Nat → List (Nat × Nat)
  | [], p, t => if t = 0 then [] else [(p, t)]
  | e :: rest, p, t =>
    if p < e.1 then (if t = 0 then e :: rest else (p, t) :: e :: rest)
    else if p = e.1 then (if t = 0 then rest else (p, t) :: rest)
    else e :: insertTokens rest p t

/-- A marking: the sparse place-to-tokens map of the source, struct
Marking(BTreeMap<PlaceId, Tokens>). The entries field is the sorted
key-value sequence of the BTreeMap. -/
structure Marking where
  entries : List (Nat × Nat)
deriving DecidableEq, Repr

/-- Source: MarkingFn::get for Marking (absent places hold 0 tokens). -/
def Marking.get (m : Marking) (p : Nat) : Nat := lookupTokens m.entries p

/-- Source: MarkingFn::set for Marking. -/
def Marking.set (m : Marking) (p t : Nat) : Marking := ⟨insertTokens m.entries p t⟩

/-- Representation invariant of the BTreeMap embedding: keys strictly
sorted and only nonzero token counts stored (Marking::set never stores a
zero entry). -/
def Marking.WF (m : Marking) : Prop :=
  m.entries.Pairwise (fun a b => a.1 < b.1) ∧ ∀ e ∈ m.entries, 0 < e.2

instance (m : Marking) : Decidable m.WF := by
  unfold Marking.WF; infer_instance

/-- Source: Marking::covered_by - every stored entry of m must be matched
by at least as many tokens in the other marking. -/
def Marking.covered_by (m other : Marking) : Bool :=
  m.entries.all fun e => decide (e.2 ≤ other.get e.1)

/-! The net description and the Bound / Live lattices. -/

/-- Modelled from the spec: the arc list distinguishes place-to-transition
and transition-to-place arcs (spec section 6). The Arc enum itself lives in
the sibling module and is matched in reachability.rs as
Arc::PlaceTransition(source, target) and Arc::TransitionPlace(source, target). -/
inductive Arc where
  | placeTransition (source target : Nat)
  | transitionPlace (source target : Nat)
deriving DecidableEq, Repr

/-- Modelled from the spec: the net description consumed by the engine
(spec section 6) - ordered places and transitions carrying dense ids, an
arc list, total weight and capacity lookups (get_or_default already
applied, per spec section 6 the defaults are a fixed weight and an
unlimited capacity), and the initial marking. The PetriNet struct itself
lives in the sibling module; reachability.rs reads exactly these fields. -/
structure PetriNet where
  places : List Nat
  transitions : List Nat
  arcs : List Arc
  capacities : Nat → Nat
  weights : Arc → Nat
  initial_marking : Marking

/-- Source: enum Bound - Bounded(Tokens) or Unbounded. -/
inductive Bound where
  | Bounded (t : Nat)
  | Unbounded
deriving DecidableEq, Repr

/-- Source: impl Ord for Bound, transcribed arm by arm. Note that the
source returns Ordering::Greater for (Bounded, Unbounded) and
Ordering::Less for (Unbounded, Bounded). -/
def Bound.cmp : Bound → Bound → Ordering
  | Bound.Bounded a, Bound.Bounded b => compare a b
  | Bound.Unbounded, Bound.Unbounded => Ordering.eq
  | Bound.Bounded _, Bound.Unbounded => Ordering.gt
  | Bound.Unbounded, Bound.Bounded _ => Ordering.lt

/-- Rust std::cmp::max for Bound under the Ord implementation above:
returns the first argument when it compares strictly greater, otherwise
the second. -/
def Bound.max (a b : Bound) : Bound :=
  match Bound.cmp a b with
  | Ordering.gt => a
  | _ => b

/-- Source: enum Live - the transition liveness classes L0 to L4. -/
inductive Live where
  | L0
  | L1
  | L2
  | L3
  | L4
deriving DecidableEq, Repr

/-- Discriminant order of Live (the derived Rust Ord). -/
def Live.toNat : Live → Nat
  | Live.L0 => 0
  | Live.L1 => 1
  | Live.L2 => 2
  | Live.L3 => 3
  | Live.L4 => 4

/-- Rust std::cmp::max for Live under the derived discriminant order. -/
def Live.max (a b : Live) : Live := if Live.toNat b < Live.toNat a then a else b

/-- Source: struct Boundedness(Vec<Bound>), indexed by place id. -/
abbrev Boundedness := List Bound

/-- Source: Boundedness::new - one Bounded(0) entry per place, then the
entries of the initial marking written in directly. -/
def Boundedness.new (net : PetriNet) : Boundedness :=
  net.initial_marking.entries.foldl
    (fun v e => v.set e.1 (Bound.Bounded e.2))
    (List.replicate net.places.length (Bound.Bounded 0))

/-- Source: Boundedness::update - store the max of the old and new bound.
Indexing out of range is a collaborator programming error in the source
(a panic); the embedding makes it a no-op. -/
def Boundedness.update (b : Boundedness) (p : Nat) (bd : Bound) : Boundedness :=
  b.set p (Bound.max (b.getD p (Bound.Bounded 0)) bd)

/-- Source: struct Liveness(Vec<Live>), indexed by transition id. -/
abbrev Liveness := List Live

/-- Source: Liveness::new - every transition starts at L0. -/
def Liveness.new (net : PetriNet) : Liveness :=
  List.replicate net.transitions.length Live.L0

/-- Source: Liveness::update - store the max of the old and new class. -/
def Liveness.update (l : Liveness) (tid : Nat) (live : Live) : Liveness :=
  l.set tid (Live.max (l.getD tid Live.L0) live)

/-- Source: struct TransitionIO (renamed here) - a transition id with the
lists of its input and output places. -/
structure TransitionArcs where
  id : Nat
  inputs : List Nat
  outputs : List Nat
deriving DecidableEq, Repr

/-- Source: PetriNet::transition_io - for each transition in order,
collect the sources of its incoming place arcs and the targets of its
outgoing place arcs, in arc-list order. -/
def PetriNet.transitionArcs (net : PetriNet) : List TransitionArcs :=
  net.transitions.map fun tid =>
    { id := tid
      inputs := net.arcs.filterMap fun a =>
        match a with
        | Arc.placeTransition source target =>
          if target = tid then some source else none
        | Arc.transitionPlace _ _ => none
      outputs := net.arcs.filterMap fun a =>
        match a with
        | Arc.placeTransition _ _ => none
        | Arc.transitionPlace source target =>
          if source = tid then some target else none }

/-! The firing rule evaluator (PetriNet::fire_transitions). -/

/-- Input phase of one firing attempt: walk the input places in order,
subtracting the arc weight with checked subtraction; the first place with
too few tokens disables the transition (source: the try_for_each over
transition.inputs). -/
def fireInputs (weights : Arc → Nat) (tid : Nat) :
    List Nat → Marking → Option Marking
  | [], m => some m
  | p :: rest, m =>
    let current := m.get p
    let req := weights (Arc.placeTransition p tid)
    if req ≤ current then fireInputs weights tid rest (m.set p (current - req))
    else none

/-- Output phase of one firing attempt: walk the output places in order;
capacity.checked_sub(weight) must succeed and the current token count must
not exceed it, then the weight is added and Boundedness updated (source:
the try_for_each over transition.outputs). A later failure keeps the
Boundedness updates already made - this mirrors the source, where the
shared accumulator has already been mutated. -/
def fireOutputs (capacities : Nat → Nat) (weights : Arc → Nat) (tid : Nat) :
    List Nat → Marking → Boundedness → Option Marking × Boundedness
  | [], m, b => (some m, b)
  | p :: rest, m, b =>
    let current := m.get p
    let ow := weights (Arc.transitionPlace tid p)
    let cap := capacities p
    if ow ≤ cap ∧ current ≤ cap - ow then
      let nt := current + ow
      fireOutputs capacities weights tid rest (m.set p nt)
        (Boundedness.update b p (Bound.Bounded nt))
    else (none, b)

/-- Source: PetriNet::fire_transitions - attempt every transition from the
given marking (each attempt starts from a clone of it), collect the
successful (transition id, resulting marking) pairs in order, and thread
the Boundedness and Liveness accumulators through every attempt. -/
def fire_transitions (tios : List TransitionArcs) (marking : Marking)
    (capacities : Nat → Nat) (weights : Arc → Nat)
    (b : Boundedness) (l : Liveness) :
    List (Nat × Marking) × Boundedness × Liveness :=
  match tios with
  | [] => ([], b, l)
  | io :: rest =>
    match fireInputs weights io.id io.inputs marking with
    | none => fire_transitions rest marking capacities weights b l
    | some m1 =>
      match fireOutputs capacities weights io.id io.outputs m1 b with
      | (none, b1) => fire_transitions rest marking capacities weights b1 l
      | (some m2, b1) =>
        let l1 := Liveness.update l io.id Live.L1
        let r := fire_transitions rest marking capacities weights b1 l1
        ((io.id, m2) :: r.1, r.2)

/-- One firing attempt in isolation: the marking produced for a single
transition, ignoring the accumulators (the Option component of the two
phases does not depend on them). -/
def fireOne (capacities : Nat → Nat) (weights : Arc → Nat)
    (io : TransitionArcs) (m : Marking) : Option Marking :=
  match fireInputs weights io.id io.inputs m with
  | none => none
  | some m1 => (fireOutputs capacities weights io.id io.outputs m1 []).1

/-- The successor list of a marking: all (transition id, marking) pairs
produced by firing every enabled transition once. -/
def succs (net : PetriNet) (m : Marking) : List (Nat × Marking) :=
  net.transitionArcs.filterMap fun io =>
    (fireOne net.capacities net.weights io m).map fun m2 => (io.id, m2)

/-! The marking table and the BFS engine. -/

/-- Source: Markings::remember - the new id is the table size before
insertion. The HashMap is embedded as an insertion-ordered association
list; remember must not be called twice for the same marking (spec
section 4.3 leaves that undefined), and the search never does. -/
def Markings.remember (ms : List (Marking × Nat)) (m : Marking) :
    Nat × List (Marking × Nat) :=
  (ms.length, ms ++ [(m, ms.length)])

/-- Source: Markings::look_up - HashMap::get on the table. -/
def Markings.look_up (ms : List (Marking × Nat)) (m : Marking) : Option Nat :=
  (ms.find? fun e => e.1 == m).map fun e => e.2

/-- The operations the search needs from the marking table. The reference
instantiation is the association list above; the seeded bucket
instantiation below models the randomly seeded HashMap of the source. -/
structure TableOps (σ : Type) where
  look_up : σ → Marking → Option Nat
  remember : σ → Marking → Nat × σ

def listTable : TableOps (List (Marking × Nat)) :=
  { look_up := Markings.look_up, remember := Markings.remember }

/-- State threaded through the inner for-loop of the BFS step: the table,
the queue tail, the continuations collected so far, and the accumulators. -/
structure ExploreState (σ : Type) where
  markings : σ
  queue : List (Nat × Marking × List (Nat × Marking))
  conts : List (Nat × Nat)
  boundedness : Boundedness
  liveness : Liveness

/-- Source: the for-loop body of reachability_analysis - for each branch,
either emit a continuation to an existing id, or remember the marking,
emit a continuation to the new id, fire its transitions and enqueue it. -/
def exploreBranches {σ : Type} (T : TableOps σ) (tios : List TransitionArcs)
    (caps : Nat → Nat) (ws : Arc → Nat) :
    List (Nat × Marking) → ExploreState σ → ExploreState σ
  | [], s => s
  | (tid, rm) :: rest, s =>
    match T.look_up s.markings rm with
    | some eid =>
      exploreBranches T tios caps ws rest
        { s with conts := s.conts ++ [(tid, eid)] }
    | none =>
      let r := T.remember s.markings rm
      let f := fire_transitions tios rm caps ws s.boundedness s.liveness
      exploreBranches T tios caps ws rest
        { markings := r.2
          queue := s.queue ++ [(r.1, rm, f.1)]
          conts := s.conts ++ [(tid, r.1)]
          boundedness := f.2.1
          liveness := f.2.2 }

/-- Full state of the while-loop of reachability_analysis. -/
structure BFSState (σ : Type) where
  markings : σ
  queue : List (Nat × Marking × List (Nat × Marking))
  rows : List (Nat × Marking × List (Nat × Nat))
  boundedness : Boundedness
  liveness : Liveness

/-- Source: the while-let loop of reachability_analysis, with explicit
fuel (the source loop terminates only when the reachable space is
finite). Each iteration pops the front queue entry, resolves all its
branches and appends the finished row. -/
def bfsLoop {σ : Type} (T : TableOps σ) (tios : List TransitionArcs)
    (caps : Nat → Nat) (ws : Arc → Nat) :
    Nat → BFSState σ → BFSState σ
  | 0, s => s
  | fuel + 1, s =>
    match s.queue with
    | [] => s
    | (sid, sm, branches) :: q2 =>
      let e := exploreBranches T tios caps ws branches
        ⟨s.markings, q2, [], s.boundedness, s.liveness⟩
      bfsLoop T tios caps ws fuel
        ⟨e.markings, e.queue, s.rows ++ [(sid, sm, e.conts)],
          e.boundedness, e.liveness⟩

/-- Source: struct ReachabilityAnalysis - the emitted rows and the final
accumulators (the borrowed net reference is only used for display). -/
structure ReachabilityAnalysis where
  rows : List (Nat × Marking × List (Nat × Nat))
  boundedness : Boundedness
  liveness : Liveness
deriving DecidableEq, Repr

/-- The search set up exactly as in reachability_analysis: remember the
initial marking (id 0), fire its transitions, seed the queue, and loop. -/
def runAnalysis {σ : Type} (T : TableOps σ) (empty : σ) (fuel : Nat)
    (net : PetriNet) : BFSState σ :=
  let b0 := Boundedness.new net
  let l0 := Liveness.new net
  let r := T.remember empty net.initial_marking
  let tios := net.transitionArcs
  let f := fire_transitions tios net.initial_marking net.capacities
    net.weights b0 l0
  bfsLoop T tios net.capacities net.weights fuel
    ⟨r.2, [(r.1, net.initial_marking, f.1)], [], f.2.1, f.2.2⟩

/-- Source: PetriNet::reachability_analysis, with fuel. The source while
loop runs until the queue is empty; with enough fuel the embedded loop
reaches that same state, and the analysis is returned. With insufficient
fuel (an unfinished search) the embedding returns none. -/
def reachability_analysis (fuel : Nat) (net : PetriNet) :
    Option ReachabilityAnalysis :=
  let s := runAnalysis listTable [] fuel net
  if s.queue = [] then some ⟨s.rows, s.boundedness, s.liveness⟩ else none

/-! The analysis layer (impl ReachabilityAnalysis). -/

/-- Source: enum DeadlockInterpretation. -/
inductive DeadlockInterpretation where
  | Final
  | Deadlock
deriving DecidableEq, Repr

/-- Source: the `let interpretation` block of
ReachabilityAnalysis::deadlocks - collect the entries with nonzero
tokens; a single place with exactly one token and no outgoing
place-to-transition arc is Final, anything else is Deadlock. -/
def deadlockInterp (net : PetriNet) (m : Marking) : DeadlockInterpretation :=
  match m.entries.filter fun e => decide (0 < e.2) with
  | [(pid, tokens)] =>
    if tokens = 1 ∧ (net.arcs.any fun a =>
        match a with
        | Arc.placeTransition source _ => source == pid
        | Arc.transitionPlace _ _ => false) = false
    then DeadlockInterpretation.Final
    else DeadlockInterpretation.Deadlock
  | _ => DeadlockInterpretation.Deadlock

/-- Source: the filter_map closure of ReachabilityAnalysis::deadlocks -
rows with a continuation are not deadlocks; a deadlocked row is paired
with its interpretation. -/
def deadlockStatus (net : PetriNet) (row : Nat × Marking × List (Nat × Nat)) :
    Option (Nat × DeadlockInterpretation) :=
  if row.2.2.isEmpty then some (row.1, deadlockInterp net row.2.1) else none

/-- Source: ReachabilityAnalysis::deadlocks. -/
def ReachabilityAnalysis.deadlocks (a : ReachabilityAnalysis)
    (net : PetriNet) : List (Nat × DeadlockInterpretation) :=
  a.rows.filterMap (deadlockStatus net)

/-- Source: ReachabilityAnalysis::boundedness - the Iterator::max of the
per-place bounds under Bound::cmp (the last maximal element), with
Bounded(0) for an empty net. Renamed (the struct field of the same name
holds the vector). -/
def ReachabilityAnalysis.boundednessMax (a : ReachabilityAnalysis) : Bound :=
  match a.boundedness with
  | [] => Bound.Bounded 0
  | x :: rest => rest.foldl Bound.max x

/-- Source: ReachabilityAnalysis::is_safe. -/
def ReachabilityAnalysis.is_safe (a : ReachabilityAnalysis) : Bool :=
  a.boundedness.all fun bd => decide (bd = Bound.Bounded 1)

/-- Source: ReachabilityAnalysis::is_live. -/
def ReachabilityAnalysis.is_live (a : ReachabilityAnalysis) : Bool :=
  a.liveness.all fun lv => decide (lv = Live.L4)

/-- Source: ReachabilityAnalysis::is_quasi_live. -/
def ReachabilityAnalysis.is_quasi_live (a : ReachabilityAnalysis) : Bool :=
  !a.is_live && a.liveness.any fun lv => decide (lv = Live.L4)

/-- Source: ReachabilityAnalysis::loops - loop detection is an
unimplemented placeholder returning the empty list. -/
def ReachabilityAnalysis.loops (_ : ReachabilityAnalysis) : List Nat := []

/-- Source: ReachabilityAnalysis::is_sound - every transition off L0 and
every place strictly above Bounded(0) under Bound::cmp. -/
def ReachabilityAnalysis.is_sound (a : ReachabilityAnalysis) : Bool :=
  (a.liveness.all fun lv => decide (lv ≠ Live.L0)) &&
    a.boundedness.all fun bd => decide (Bound.cmp bd (Bound.Bounded 0) = Ordering.gt)

/-- Reachability of a marking by a finite firing sequence from the
initial marking, the specification-side notion the completeness claim
quantifies over. -/
inductive Reachable (net : PetriNet) : Marking → Prop where
  | init : Reachable net net.initial_marking
  | step {m : Marking} {t : Nat} {m' : Marking} :
      Reachable net m → (t, m') ∈ succs net m → Reachable net m'

/-! Claim C7: deadlock classification. -/

/-- The Final classification exactly as the claim words it: the marking
has exactly one place with nonzero tokens, that place holds exactly one
token, and no arc of the net goes from that place to any transition. -/
def FinalSpec (net : PetriNet) (m : Marking) : Prop :=
  ∃ pid, (∀ q, 0 < m.get q ↔ q = pid) ∧ m.get pid = 1 ∧
    ∀ a ∈ net.arcs, ∀ t, a ≠ Arc.placeTransition pid t

/-- Concrete net for the claim C7 witness: one transition with an arc out
of place 0, while the deadlocked marking holds one token on place 1. -/
def netW7 : PetriNet :=
  { places := [0, 1]
    transitions := [0]
    arcs := [Arc.placeTransition 0 0]
    capacities := fun _ => 1
    weights := fun _ => 1
    initial_marking := ⟨[(1, 1)]⟩ }

def rowW7 : Nat × Marking × List (Nat × Nat) := (3, ⟨[(1, 1)]⟩, [])

/-! Claims C3 and C5: the firing rule. -/

/-- The token count after the input phase, as the claim words it: the
input weight subtracted on input places, other places untouched. -/
def midGet (ws : Arc → Nat) (io : TransitionArcs) (m : Marking) (p : Nat) : Nat :=
  if p ∈ io.inputs then m.get p - ws (Arc.placeTransition p io.id) else m.get p

/-- Enabledness exactly as the claim words it: every input place holds at
least the input arc weight, and for every output place the capacity minus
the output weight does not underflow and the current token count (after
the input phase) does not exceed that difference. -/
def enabledSpec (caps : Nat → Nat) (ws : Arc → Nat) (io : TransitionArcs)
    (m : Marking) : Prop :=
  (∀ p ∈ io.inputs, ws (Arc.placeTransition p io.id) ≤ m.get p) ∧
  (∀ p ∈ io.outputs, ws (Arc.transitionPlace io.id p) ≤ caps p ∧
    midGet ws io m p ≤ caps p - ws (Arc.transitionPlace io.id p))

/-- The resulting token count as the claim words it: input weights
subtracted and output weights added. -/
def resultGet (ws : Arc → Nat) (io : TransitionArcs) (m : Marking) (p : Nat) : Nat :=
  if p ∈ io.outputs then midGet ws io m p + ws (Arc.transitionPlace io.id p)
  else midGet ws io m p

/-- Concrete net for the claim C3 and C5 witnesses: one transition
consuming from place 0 and producing on place 1. -/
def netW3 : PetriNet :=
  { places := [0, 1]
    transitions := [0]
    arcs := [Arc.placeTransition 0 0, Arc.transitionPlace 0 1]
    capacities := fun _ => 5
    weights := fun _ => 1
    initial_marking := ⟨[(0, 1)]⟩ }

def ioW3 : TransitionArcs := { id := 0, inputs := [0], outputs := [1] }

/-- The completed analysis of netW3, used by the claim C10 witness. -/
def aW10 : ReachabilityAnalysis :=
  ⟨(runAnalysis listTable [] 2 netW3).rows,
    (runAnalysis listTable [] 2 netW3).boundedness,
    (runAnalysis listTable [] 2 netW3).liveness⟩

/-! Claim C6: dense sequential MarkingId assignment and row order. -/

/-- The id bookkeeping invariant of the search: the table size equals
rows plus queue, the emitted rows carry ids 0,1,2,... in order, and the
queue entries carry the next ids in order. -/
structure IdInv (s : BFSState (List (Marking × Nat))) : Prop where
  len_eq : s.markings.length = s.rows.length + s.queue.length
  row_ids : s.rows.map (fun r => r.1) = List.range s.rows.length
  queue_ids : s.queue.map (fun e => e.1)
    = (List.range s.queue.length).map fun j => s.rows.length + j

/-- The completed analysis of netW3 again, used by the claim C6 witness. -/
def aW6 : ReachabilityAnalysis :=
  ⟨(runAnalysis listTable [] 2 netW3).rows,
    (runAnalysis listTable [] 2 netW3).boundedness,
    (runAnalysis listTable [] 2 netW3).liveness⟩

/-! Claim C2: completeness of the search. -/

def tableKeys (ms : List (Marking × Nat)) : List Marking := ms.map fun e => e.1

def rowMarks (rows : List (Nat × Marking × List (Nat × Nat))) : List Marking :=
  rows.map fun r => r.2.1

def queueMarks (q : List (Nat × Marking × List (Nat × Marking))) : List Marking :=
  q.map fun e => e.2.1

/-- The search invariant behind the completeness claim: the table keys
are exactly the row markings followed by the queued markings with no
duplicates, the initial marking was remembered, queued branch lists are
the successor lists of their markings, every emitted row already has all
its successors in the table, and every table key is reachable. -/
structure SearchInv (net : PetriNet)
    (s : BFSState (List (Marking × Nat))) : Prop where
  keys_eq : tableKeys s.markings = rowMarks s.rows ++ queueMarks s.queue
  keys_nodup : (tableKeys s.markings).Nodup
  init_mem : net.initial_marking ∈ tableKeys s.markings
  queue_branches : ∀ e ∈ s.queue, e.2.2 = succs net e.2.1
  rows_closed : ∀ r ∈ s.rows, ∀ p ∈ succs net r.2.1,
    p.2 ∈ tableKeys s.markings
  keys_reach : ∀ m ∈ tableKeys s.markings, Reachable net m

/-- The empty net used by the claim C2 witness. -/
def net0 : PetriNet :=
  { places := []
    transitions := []
    arcs := []
    capacities := fun _ => 0
    weights := fun _ => 0
    initial_marking := ⟨[]⟩ }

/-! Claim C4: what the Boundedness accumulator records. -/

/-- The numeric value of a Boundedness entry (Bounded n reads n; entries
are in fact always Bounded during a run, and out-of-range reads use the
Bounded 0 default). -/
def bndVal (b : Boundedness) (p : Nat) : Nat :=
  match b.getD p (Bound.Bounded 0) with
  | Bound.Bounded n => n
  | Bound.Unbounded => 0

def allBounded (b : Boundedness) : Prop := ∀ x ∈ b, ∃ n, x = Bound.Bounded n

/-- A marking dominated by the accumulator: every place holds at most the
recorded bound. -/
def MDom (b : Boundedness) (m : Marking) : Prop := ∀ p, m.get p ≤ bndVal b p

/-- Pointwise growth of the accumulator. -/
def bndLe (b b2 : Boundedness) : Prop :=
  b.length = b2.length ∧ ∀ p, bndVal b p ≤ bndVal b2 p

def keysBelow (n : Nat) (m : Marking) : Prop := ∀ e ∈ m.entries, e.1 < n

/-- The place index an arc touches when firing updates a marking: the
source of a place-to-transition arc, the target of a transition-to-place
arc. -/
def Arc.placeIndex : Arc → Nat
  | Arc.placeTransition source _ => source
  | Arc.transitionPlace _ target => target

/-- Modelled from the spec: well-formedness of the net description (spec
sections 3 and 6) - the initial marking is a canonical BTreeMap over
places of the net, and every arc touches a declared place (place ids are
dense zero-based indices below the place count). -/
structure WFNet (net : PetriNet) : Prop where
  init_wf : net.initial_marking.WF
  init_places : ∀ e ∈ net.initial_marking.entries, e.1 < net.places.length
  arc_places : ∀ a ∈ net.arcs, Arc.placeIndex a < net.places.length

/-- The accumulator invariant of the search: every marking sitting in the
queue, every branch result waiting in the queue, every emitted row and
the initial marking are dominated by the (always Bounded, fixed length)
Boundedness vector. -/
structure BndInv (net : PetriNet) (s : BFSState (List (Marking × Nat))) : Prop where
  hab : allBounded s.boundedness
  hlen : s.boundedness.length = net.places.length
  queue_marks : ∀ e ∈ s.queue, e.2.1.WF ∧ keysBelow net.places.length e.2.1 ∧
    MDom s.boundedness e.2.1
  queue_branches : ∀ e ∈ s.queue, ∀ pr ∈ e.2.2, pr.2.WF ∧
    keysBelow net.places.length pr.2 ∧ MDom s.boundedness pr.2
  rows_dom : ∀ r ∈ s.rows, MDom s.boundedness r.2.1
  init_dom : MDom s.boundedness net.initial_marking

/-- The counterexample net for claim C4: one transition with no inputs
and two outputs; place 0 accepts the token but place 1 has capacity 0, so
the only firing attempt aborts after having already recorded Bounded(1)
for place 0, which no reachable marking ever holds. -/
def netC4 : PetriNet :=
  { places := [0, 1]
    transitions := [0]
    arcs := [Arc.transitionPlace 0 0, Arc.transitionPlace 0 1]
    capacities := fun p => if p = 0 then 10 else 0
    weights := fun _ => 1
    initial_marking := ⟨[]⟩ }

/-- The value claim C4 asserts the entry equals: the maximum number of
tokens the place ever holds across the reachable markings (the initial
marking and every row). -/
def maxObservedTokens (net : PetriNet) (a : ReachabilityAnalysis)
    (p : Nat) : Nat :=
  (a.rows.map fun r => r.2.1.get p).foldl Nat.max (net.initial_marking.get p)

/-- The completed analysis of netC4, used by the claim C4 witness. -/
def aW4 : ReachabilityAnalysis :=
  ⟨(runAnalysis listTable [] 1 netC4).rows,
    (runAnalysis listTable [] 1 netC4).boundedness,
    (runAnalysis listTable [] 1 netC4).liveness⟩

/-! Claim C9: determinism of the analysis despite the seeded hash map. -/

/-- Modelled from the source: the marking table is a HashMap with a
random per-run seed. The model is a fixed array of B buckets; the seed is
folded into the hash function h, and marking m lives in bucket h m % B.
The table size is the number of stored entries across all buckets. -/
def hashSize (s : List (List (Marking × Nat))) : Nat :=
  (s.map List.length).sum

/-- Bucket-table lookup: search only the bucket the hash selects. -/
def hashLook (h : Marking → Nat) (B : Nat)
    (s : List (List (Marking × Nat))) (m : Marking) : Option Nat :=
  ((s.getD (h m % B) []).find? fun e => e.1 == m).map fun e => e.2

/-- Bucket-table insert: new id is the table size before insertion, the
entry is prepended to its bucket. -/
def hashRemember (h : Marking → Nat) (B : Nat)
    (s : List (List (Marking × Nat))) (m : Marking) :
    Nat × List (List (Marking × Nat)) :=
  (hashSize s, s.set (h m % B) ((m, hashSize s) :: s.getD (h m % B) []))

def hashTable (h : Marking → Nat) (B : Nat) :
    TableOps (List (List (Marking × Nat))) :=
  { look_up := hashLook h B, remember := hashRemember h B }

/-- reachability_analysis run over the seeded hash table model instead of
the reference association list. -/
def reachability_analysisH (h : Marking → Nat) (B : Nat) (fuel : Nat)
    (net : PetriNet) : Option ReachabilityAnalysis :=
  let s := runAnalysis (hashTable h B) (List.replicate B []) fuel net
  if s.queue = [] then some ⟨s.rows, s.boundedness, s.liveness⟩ else none

/-- Simulation relation between a bucket table and the reference table:
same size and pointwise equal lookups. -/
def TRel (h : Marking → Nat) (B : Nat) (t : List (List (Marking × Nat)))
    (l : List (Marking × Nat)) : Prop :=
  t.length = B ∧ hashSize t = l.length ∧
  ∀ m, hashLook h B t m = Markings.look_up l m

/-- A first concrete seeded hash function for the claim C9 witness. -/
def hf1 (m : Marking) : Nat := m.entries.length

/-- A second, different concrete seeded hash function for the witness. -/
def hf2 (m : Marking) : Nat := (m.entries.map fun e => e.1 + e.2).sum + 7

/-! Association list lemmas for the marking representation. -/

theorem lookupTokens_eq_zero_of_forall_ne {l : List (Nat × Nat)} {p : Nat}
    (h : ∀ e ∈ l, e.1 ≠ p) : lookupTokens l p = 0 := by
  induction l with
  | nil => rfl
  | cons e rest ih =>
    have he : e.1 ≠ p := h e (by simp)
    simp only [lookupTokens, if_neg he]
    exact ih fun f hf => h f (by simp [hf])

theorem lookupTokens_of_mem {l : List (Nat × Nat)} {e : Nat × Nat}
    (hl : l.Pairwise (fun a b => a.1 < b.1)) (he : e ∈ l) :
    lookupTokens l e.1 = e.2 := by
  induction l with
  | nil => cases he
  | cons f rest ih =>
    rcases List.mem_cons.mp he with h | h
    · subst h; simp [lookupTokens]
    · have hf : f.1 < e.1 := (List.pairwise_cons.mp hl).1 e h
      have : f.1 ≠ e.1 := Nat.ne_of_lt hf
      simp only [lookupTokens, if_neg this]
      exact ih (List.pairwise_cons.mp hl).2 h

theorem mem_of_lookupTokens_pos {l : List (Nat × Nat)} {p : Nat}
    (h : 0 < lookupTokens l p) : (p, lookupTokens l p) ∈ l := by
  induction l with
  | nil => simp [lookupTokens] at h
  | cons e rest ih =>
    by_cases he : e.1 = p
    · simp only [lookupTokens, if_pos he] at h ⊢
      have hpe : (p, e.2) = e := by cases e; simp_all
      rw [hpe]
      exact List.mem_cons_self _ _
    · simp only [lookupTokens, if_neg he] at h ⊢
      exact List.mem_cons_of_mem e (ih h)

theorem mem_insertTokens {l : List (Nat × Nat)} {p t : Nat} {e : Nat × Nat}
    (h : e ∈ insertTokens l p t) : e ∈ l ∨ (e = (p, t) ∧ t ≠ 0) := by
  induction l with
  | nil =>
    by_cases ht : t = 0
    · simp [insertTokens, ht] at h
    · simp only [insertTokens, if_neg ht, List.mem_singleton] at h
      exact Or.inr ⟨h, ht⟩
  | cons f rest ih =>
    simp only [insertTokens] at h
    split at h
    · by_cases ht : t = 0
      · rw [if_pos ht] at h
        exact Or.inl h
      · rw [if_neg ht] at h
        rcases List.mem_cons.mp h with h | h
        · exact Or.inr ⟨h, ht⟩
        · exact Or.inl h
    · split at h
      · by_cases ht : t = 0
        · rw [if_pos ht] at h
          exact Or.inl (List.mem_cons_of_mem f h)
        · rw [if_neg ht] at h
          rcases List.mem_cons.mp h with h | h
          · exact Or.inr ⟨h, ht⟩
          · exact Or.inl (List.mem_cons_of_mem f h)
      · rcases List.mem_cons.mp h with h | h
        · exact Or.inl (by rw [h]; exact List.mem_cons_self f rest)
        · rcases ih h with h | h
          · exact Or.inl (List.mem_cons_of_mem f h)
          · exact Or.inr h

theorem lookupTokens_insertTokens {l : List (Nat × Nat)}
    (hl : l.Pairwise (fun a b => a.1 < b.1)) (p t q : Nat) :
    lookupTokens (insertTokens l p t) q = if q = p then t else lookupTokens l q := by
  induction l with
  | nil =>
    by_cases ht : t = 0
    · by_cases hq : q = p <;> simp [insertTokens, lookupTokens, ht, hq]
    · by_cases hq : q = p <;> simp [insertTokens, lookupTokens, ht, hq]
      · intro h; exact absurd h.symm hq
  | cons f rest ih =>
    have hhead : ∀ g ∈ rest, f.1 < g.1 := (List.pairwise_cons.mp hl).1
    have htail := (List.pairwise_cons.mp hl).2
    simp only [insertTokens]
    split
    · -- p < f.1
      rename_i hpf
      by_cases ht : t = 0
      · simp only [if_pos ht]
        by_cases hq : q = p
        · subst hq
          rw [if_pos rfl, ht]
          have : ∀ e ∈ f :: rest, e.1 ≠ q := by
            intro e he
            rcases List.mem_cons.mp he with h | h
            · subst h; exact Nat.ne_of_gt hpf
            · exact Nat.ne_of_gt (Nat.lt_trans hpf (hhead e h))
          exact lookupTokens_eq_zero_of_forall_ne this
        · rw [if_neg hq]
      · simp only [if_neg ht]
        by_cases hq : q = p
        · subst hq; simp [lookupTokens]
        · simp only [lookupTokens, if_neg hq]
          rw [if_neg (fun h : p = q => hq h.symm)]
    · split
      · -- p = f.1
        rename_i hpf hpeq
        by_cases ht : t = 0
        · simp only [if_pos ht]
          by_cases hq : q = p
          · subst hq; rw [if_pos rfl, ht]
            exact lookupTokens_eq_zero_of_forall_ne fun e he =>
              Nat.ne_of_gt (hpeq ▸ hhead e he)
          · rw [if_neg hq]
            simp only [lookupTokens]
            rw [if_neg (fun h : f.1 = q => hq (by rw [← h]; exact hpeq.symm))]
        · simp only [if_neg ht]
          by_cases hq : q = p
          · subst hq; simp [lookupTokens]
          · rw [if_neg hq]
            simp only [lookupTokens]
            rw [if_neg (fun h : p = q => hq h.symm),
              if_neg (fun h : f.1 = q => hq (by rw [← h]; exact hpeq.symm))]
      · -- f.1 < p
        rename_i hpf hpne
        have hfp : f.1 ≠ p := fun h => hpne h.symm
        by_cases hq : q = p
        · subst hq
          simp only [lookupTokens, if_neg hfp, ih htail, if_pos rfl]
        · simp only [lookupTokens, ih htail, if_neg hq]

theorem insertTokens_pairwise {l : List (Nat × Nat)}
    (hl : l.Pairwise (fun a b => a.1 < b.1)) (p t : Nat) :
    (insertTokens l p t).Pairwise (fun a b => a.1 < b.1) := by
  induction l with
  | nil =>
    by_cases ht : t = 0 <;> simp [insertTokens, ht]
  | cons f rest ih =>
    have hhead : ∀ g ∈ rest, f.1 < g.1 := (List.pairwise_cons.mp hl).1
    have htail := (List.pairwise_cons.mp hl).2
    simp only [insertTokens]
    split
    · rename_i hpf
      by_cases ht : t = 0
      · simpa [ht] using hl
      · simp only [if_neg ht]
        refine List.pairwise_cons.mpr ⟨?_, hl⟩
        intro g hg
        rcases List.mem_cons.mp hg with h | h
        · subst h; exact hpf
        · exact Nat.lt_trans hpf (hhead g h)
    · split
      · rename_i hpf hpeq
        by_cases ht : t = 0
        · simpa [ht] using htail
        · simp only [if_neg ht]
          refine List.pairwise_cons.mpr ⟨?_, htail⟩
          intro g hg
          exact hpeq ▸ hhead g hg
      · rename_i hpf hpne
        have hfp : f.1 < p := by omega
        refine List.pairwise_cons.mpr ⟨?_, ih htail⟩
        intro g hg
        rcases mem_insertTokens hg with h | h
        · exact hhead g h
        · rw [h.1]; exact hfp

theorem insertTokens_pos {l : List (Nat × Nat)}
    (hl : ∀ e ∈ l, 0 < e.2) (p t : Nat) :
    ∀ e ∈ insertTokens l p t, 0 < e.2 := by
  intro e he
  rcases mem_insertTokens he with h | h
  · exact hl e h
  · rw [h.1]; exact Nat.pos_of_ne_zero h.2

/-- Point lookup after Marking::set, under the representation invariant. -/
theorem Marking.get_set {m : Marking} (hm : m.WF) (p t q : Nat) :
    (m.set p t).get q = if q = p then t else m.get q :=
  lookupTokens_insertTokens hm.1 p t q

theorem Marking.set_WF {m : Marking} (hm : m.WF) (p t : Nat) :
    (m.set p t).WF :=
  ⟨insertTokens_pairwise hm.1 p t, insertTokens_pos hm.2 p t⟩

theorem Marking.get_of_mem {m : Marking} (hm : m.WF) {e : Nat × Nat}
    (he : e ∈ m.entries) : m.get e.1 = e.2 :=
  lookupTokens_of_mem hm.1 he

theorem Marking.mem_of_get_pos {m : Marking} {p : Nat} (h : 0 < m.get p) :
    (p, m.get p) ∈ m.entries :=
  mem_of_lookupTokens_pos h

theorem Marking.get_eq_zero_of_keys_lt {m : Marking} {n p : Nat}
    (h : ∀ e ∈ m.entries, e.1 < n) (hp : n ≤ p) : m.get p = 0 :=
  lookupTokens_eq_zero_of_forall_ne fun e he => Nat.ne_of_lt (Nat.lt_of_lt_of_le (h e he) hp)

/-- Keys present after Marking::set come from the old marking or are the
set place itself. -/
theorem Marking.mem_set {m : Marking} {p t : Nat} {e : Nat × Nat}
    (h : e ∈ (m.set p t).entries) : e ∈ m.entries ∨ (e = (p, t) ∧ t ≠ 0) :=
  mem_insertTokens h

theorem fireOutputs_fst_indep (capacities : Nat → Nat) (weights : Arc → Nat)
    (tid : Nat) (os : List Nat) (m : Marking) (b b' : Boundedness) :
    (fireOutputs capacities weights tid os m b).1
      = (fireOutputs capacities weights tid os m b').1 := by
  induction os generalizing m b b' with
  | nil => rfl
  | cons p rest ih =>
    simp only [fireOutputs]
    split
    · exact ih _ _ _
    · rfl

/-- The result list of fire_transitions is the pointwise filterMap of the
isolated attempts: the accumulators influence neither enabledness nor the
resulting markings. -/
theorem fire_transitions_fst (tios : List TransitionArcs) (m : Marking)
    (capacities : Nat → Nat) (weights : Arc → Nat)
    (b : Boundedness) (l : Liveness) :
    (fire_transitions tios m capacities weights b l).1
      = tios.filterMap fun io =>
          (fireOne capacities weights io m).map fun m2 => (io.id, m2) := by
  induction tios generalizing b l with
  | nil => rfl
  | cons io rest ih =>
    rw [List.filterMap_cons]
    simp only [fire_transitions]
    cases hin : fireInputs weights io.id io.inputs m with
    | none =>
      have h1 : fireOne capacities weights io m = none := by
        simp [fireOne, hin]
      rw [h1]
      simp [ih]
    | some m1 =>
      have hfst := fireOutputs_fst_indep capacities weights io.id io.outputs m1 b []
      cases hout : fireOutputs capacities weights io.id io.outputs m1 b with
      | mk o b1 =>
        rw [hout] at hfst
        cases o with
        | none =>
          have h1 : fireOne capacities weights io m = none := by
            simp [fireOne, hin, ← hfst]
          rw [h1]
          simp [hout, ih]
        | some m2 =>
          have h1 : fireOne capacities weights io m = some m2 := by
            simp [fireOne, hin, ← hfst]
          rw [h1]
          simp [hout, ih]

/-- Firing results computed during the search equal the successor list. -/
theorem fire_transitions_fst_succs (net : PetriNet) (m : Marking)
    (b : Boundedness) (l : Liveness) :
    (fire_transitions net.transitionArcs m net.capacities net.weights b l).1
      = succs net m :=
  fire_transitions_fst _ _ _ _ _ _

/-! Claim C1: the ordering on Bound. -/

/-- Claim C1 (code evaluation at the failing input): the claim states
that every Bounded value is strictly below Unbounded and that
boundedness() lets Unbounded dominate. The source ordering does the
opposite: Bound::cmp(Bounded(0), Unbounded) is Greater,
Bound::cmp(Unbounded, Bounded(0)) is Less, and the Iterator::max used by
boundedness() therefore prefers Bounded(1) over Unbounded. Only the
Bounded-Bounded clause of the claim holds. -/
theorem claim1_bound_order_bug :
    Bound.cmp (Bound.Bounded 0) Bound.Unbounded = Ordering.gt ∧
    Bound.cmp Bound.Unbounded (Bound.Bounded 0) = Ordering.lt ∧
    (∀ a b : Nat, Bound.cmp (Bound.Bounded a) (Bound.Bounded b) = compare a b) ∧
    ReachabilityAnalysis.boundednessMax
        { rows := []
          boundedness := [Bound.Bounded 1, Bound.Unbounded]
          liveness := [] }
      = Bound.Bounded 1 :=
  ⟨rfl, rfl, fun _ _ => rfl, rfl⟩

/-! Claim C8: covered_by. -/

/-- Claim C8: covered_by holds exactly when every place with nonzero
tokens in the first marking has at least as many tokens in the second
marking (absent places impose no requirement), and covered_by is
reflexive. -/
theorem claim8_covered_by (m other : Marking) (hm : m.WF) :
    (m.covered_by other = true ↔
      ∀ p, 0 < m.get p → m.get p ≤ other.get p) ∧
    m.covered_by m = true := by
  constructor
  · constructor
    · intro h p hp
      have hmem := Marking.mem_of_get_pos hp
      have := (List.all_eq_true.mp h) _ hmem
      simpa using this
    · intro h
      apply List.all_eq_true.mpr
      intro e he
      have hg : m.get e.1 = e.2 := Marking.get_of_mem hm he
      have hpos : 0 < e.2 := hm.2 e he
      have := h e.1 (by rw [hg]; exact hpos)
      rw [hg] at this
      simpa using this
  · apply List.all_eq_true.mpr
    intro e he
    have hg : m.get e.1 = e.2 := Marking.get_of_mem hm he
    simp [hg]

/-- Witness for claim C8 at a concrete pair of markings. -/
theorem claim8_covered_by_witness :
    (Marking.WF ⟨[(0, 2), (3, 1)]⟩) ∧
    ((Marking.covered_by ⟨[(0, 2), (3, 1)]⟩ ⟨[(0, 2), (1, 5), (3, 4)]⟩ = true ↔
        ∀ p, 0 < Marking.get ⟨[(0, 2), (3, 1)]⟩ p →
          Marking.get ⟨[(0, 2), (3, 1)]⟩ p ≤
            Marking.get ⟨[(0, 2), (1, 5), (3, 4)]⟩ p) ∧
      Marking.covered_by ⟨[(0, 2), (3, 1)]⟩ ⟨[(0, 2), (3, 1)]⟩ = true) :=
  ⟨by decide, claim8_covered_by ⟨[(0, 2), (3, 1)]⟩ ⟨[(0, 2), (1, 5), (3, 4)]⟩ (by decide)⟩

theorem entries_singleton_iff {m : Marking} (hm : m.WF) (pid : Nat) :
    m.entries = [(pid, 1)] ↔ (∀ q, 0 < m.get q ↔ q = pid) ∧ m.get pid = 1 := by
  constructor
  · intro h
    have hget : ∀ q, m.get q = if pid = q then 1 else 0 := by
      intro q
      simp [Marking.get, h, lookupTokens]
    refine ⟨fun q => ?_, by simp [hget]⟩
    rw [hget q]
    by_cases hq : pid = q
    · simp [hq]
    · simp [hq]
      omega
  · rintro ⟨hall, hone⟩
    cases hme : m.entries with
    | nil =>
      exfalso
      have : m.get pid = 0 := by simp [Marking.get, hme, lookupTokens]
      omega
    | cons e tail =>
      cases htail : tail with
      | nil =>
        have hmem : e ∈ m.entries := by rw [hme]; exact List.mem_cons_self _ _
        have hg : m.get e.1 = e.2 := Marking.get_of_mem hm hmem
        have hpos : 0 < e.2 := hm.2 e hmem
        have hpid : e.1 = pid := (hall e.1).mp (by omega)
        have hval : e.2 = 1 := by rw [← hone, ← hpid, hg]
        have : e = (pid, 1) := by
          cases e
          simp_all
        rw [this]
      | cons e2 tail2 =>
        exfalso
        have hmem1 : e ∈ m.entries := by rw [hme]; exact List.mem_cons_self _ _
        have hmem2 : e2 ∈ m.entries := by
          rw [hme, htail]
          exact List.mem_cons_of_mem e (List.mem_cons_self _ _)
        have hg1 : m.get e.1 = e.2 := Marking.get_of_mem hm hmem1
        have hg2 : m.get e2.1 = e2.2 := Marking.get_of_mem hm hmem2
        have hpos1 : 0 < e.2 := hm.2 e hmem1
        have hpos2 : 0 < e2.2 := hm.2 e2 hmem2
        have hpid1 : e.1 = pid := (hall e.1).mp (by omega)
        have hpid2 : e2.1 = pid := (hall e2.1).mp (by omega)
        have hlt : e.1 < e2.1 := by
          have hp := hm.1
          rw [hme, htail] at hp
          exact (List.pairwise_cons.mp hp).1 e2 (List.mem_cons_self _ _)
        omega

theorem filter_pos_eq_self {m : Marking} (hm : m.WF) :
    (m.entries.filter fun e => decide (0 < e.2)) = m.entries :=
  List.filter_eq_self.mpr fun e he => by simpa using hm.2 e he

theorem deadlockInterp_of_nil (net : PetriNet) (m : Marking)
    (h : (m.entries.filter fun e => decide (0 < e.2)) = []) :
    deadlockInterp net m = DeadlockInterpretation.Deadlock := by
  unfold deadlockInterp
  rw [h]

theorem deadlockInterp_of_single (net : PetriNet) (m : Marking) (pid t : Nat)
    (h : (m.entries.filter fun e => decide (0 < e.2)) = [(pid, t)]) :
    deadlockInterp net m =
      if t = 1 ∧ (net.arcs.any fun a =>
          match a with
          | Arc.placeTransition source _ => source == pid
          | Arc.transitionPlace _ _ => false) = false
      then DeadlockInterpretation.Final
      else DeadlockInterpretation.Deadlock := by
  unfold deadlockInterp
  rw [h]

theorem deadlockInterp_of_multi (net : PetriNet) (m : Marking)
    (e1 e2 : Nat × Nat) (rest : List (Nat × Nat))
    (h : (m.entries.filter fun e => decide (0 < e.2)) = e1 :: e2 :: rest) :
    deadlockInterp net m = DeadlockInterpretation.Deadlock := by
  unfold deadlockInterp
  rw [h]

theorem deadlockInterp_final_iff (net : PetriNet) (m : Marking) (hm : m.WF) :
    deadlockInterp net m = DeadlockInterpretation.Final ↔ FinalSpec net m := by
  have hfilter := filter_pos_eq_self hm
  constructor
  · intro h
    cases hme : m.entries with
    | nil =>
      rw [deadlockInterp_of_nil net m (by rw [hfilter, hme])] at h
      cases h
    | cons e tail =>
      cases tail with
      | cons e2 t2 =>
        rw [deadlockInterp_of_multi net m e e2 t2 (by rw [hfilter, hme])] at h
        cases h
      | nil =>
        obtain ⟨pid, t⟩ := e
        rw [deadlockInterp_of_single net m pid t (by rw [hfilter, hme])] at h
        by_cases hc : t = 1 ∧ (net.arcs.any fun a =>
            match a with
            | Arc.placeTransition source _ => source == pid
            | Arc.transitionPlace _ _ => false) = false
        · obtain ⟨ht1, hany⟩ := hc
          subst ht1
          obtain ⟨hall, hone⟩ := (entries_singleton_iff hm pid).mp hme
          refine ⟨pid, hall, hone, ?_⟩
          intro a ha tt heq
          have htrue : (net.arcs.any fun a =>
              match a with
              | Arc.placeTransition source _ => source == pid
              | Arc.transitionPlace _ _ => false) = true :=
            List.any_eq_true.mpr ⟨a, ha, by rw [heq]; simp⟩
          rw [hany] at htrue
          cases htrue
        · rw [if_neg hc] at h
          cases h
  · rintro ⟨pid, hall, hone, harcs⟩
    have hsing : m.entries = [(pid, 1)] :=
      (entries_singleton_iff hm pid).mpr ⟨hall, hone⟩
    rw [deadlockInterp_of_single net m pid 1 (by rw [hfilter, hsing])]
    have hany : (net.arcs.any fun a =>
        match a with
        | Arc.placeTransition source _ => source == pid
        | Arc.transitionPlace _ _ => false) = false := by
      rw [Bool.eq_false_iff]
      intro htrue
      obtain ⟨a, ha, hfa⟩ := List.any_eq_true.mp htrue
      cases a with
      | placeTransition source target =>
        have hsrc : source = pid := by simpa using hfa
        exact harcs _ ha target (by rw [hsrc])
      | transitionPlace source target => simp at hfa
    rw [if_pos ⟨rfl, hany⟩]

/-- Claim C7: in the completed analysis a row is classified as a deadlock
exactly when its continuation list is empty, and a deadlocked row is
interpreted as Final exactly when its marking has exactly one place with
nonzero tokens, holding exactly 1 token, with no arc from that place to
any transition; every other deadlocked row is interpreted as Deadlock.
The deadlocks function is the filterMap of this per-row classification
over the rows. -/
theorem claim7_deadlock_classification (net : PetriNet)
    (row : Nat × Marking × List (Nat × Nat)) (hwf : row.2.1.WF) :
    (deadlockStatus net row = none ↔ row.2.2 ≠ []) ∧
    (row.2.2 = [] →
      (deadlockStatus net row = some (row.1, DeadlockInterpretation.Final) ↔
        FinalSpec net row.2.1)) ∧
    (row.2.2 = [] →
      (deadlockStatus net row = some (row.1, DeadlockInterpretation.Deadlock) ↔
        ¬ FinalSpec net row.2.1)) ∧
    ∀ a : ReachabilityAnalysis,
      a.deadlocks net = a.rows.filterMap (deadlockStatus net) := by
  refine ⟨?_, fun hc => ?_, fun hc => ?_, fun a => rfl⟩
  · cases hc : row.2.2 with
    | nil => simp [deadlockStatus, hc]
    | cons c cs => simp [deadlockStatus, hc]
  · rw [deadlockStatus, hc]
    simp only [List.isEmpty_nil, if_true, Option.some.injEq, Prod.mk.injEq,
      true_and]
    exact deadlockInterp_final_iff net row.2.1 hwf
  · rw [deadlockStatus, hc]
    simp only [List.isEmpty_nil, if_true, Option.some.injEq, Prod.mk.injEq,
      true_and]
    rw [← deadlockInterp_final_iff net row.2.1 hwf]
    cases deadlockInterp net row.2.1 with
    | Final => simp
    | Deadlock => simp

/-- Witness for claim C7 at a concrete deadlocked row. -/
theorem claim7_deadlock_classification_witness :
    Marking.WF rowW7.2.1 ∧
    ((deadlockStatus netW7 rowW7 = none ↔ rowW7.2.2 ≠ []) ∧
      (rowW7.2.2 = [] →
        (deadlockStatus netW7 rowW7 = some (rowW7.1, DeadlockInterpretation.Final) ↔
          FinalSpec netW7 rowW7.2.1)) ∧
      (rowW7.2.2 = [] →
        (deadlockStatus netW7 rowW7 = some (rowW7.1, DeadlockInterpretation.Deadlock) ↔
          ¬ FinalSpec netW7 rowW7.2.1)) ∧
      ∀ a : ReachabilityAnalysis,
        a.deadlocks netW7 = a.rows.filterMap (deadlockStatus netW7)) :=
  ⟨by decide, claim7_deadlock_classification netW7 rowW7 (by decide)⟩

theorem fireInputs_some_iff {ws : Arc → Nat} {tid : Nat} (ins : List Nat)
    (m : Marking) (hm : m.WF) (hnd : ins.Nodup) :
    (∃ m1, fireInputs ws tid ins m = some m1) ↔
      ∀ p ∈ ins, ws (Arc.placeTransition p tid) ≤ m.get p := by
  induction ins generalizing m with
  | nil => simp [fireInputs]
  | cons p rest ih =>
    have hp : p ∉ rest := (List.nodup_cons.mp hnd).1
    have hrest : rest.Nodup := (List.nodup_cons.mp hnd).2
    simp only [fireInputs]
    by_cases hc : ws (Arc.placeTransition p tid) ≤ m.get p
    · rw [if_pos hc]
      have hm' := Marking.set_WF hm p (m.get p - ws (Arc.placeTransition p tid))
      rw [ih _ hm' hrest]
      constructor
      · intro h q hq
        rcases List.mem_cons.mp hq with h1 | h1
        · subst h1; exact hc
        · have := h q h1
          rwa [Marking.get_set hm p _ q, if_neg (fun he : q = p => hp (he ▸ h1))] at this
      · intro h q hq
        have := h q (List.mem_cons_of_mem p hq)
        rwa [Marking.get_set hm p _ q, if_neg (fun he : q = p => hp (he ▸ hq))]
    · rw [if_neg hc]
      constructor
      · rintro ⟨m1, hm1⟩; cases hm1
      · intro h; exact absurd (h p (List.mem_cons_self p rest)) hc

theorem fireInputs_get {ws : Arc → Nat} {tid : Nat} (ins : List Nat)
    (m m1 : Marking) (hm : m.WF) (hnd : ins.Nodup)
    (h : fireInputs ws tid ins m = some m1) :
    m1.WF ∧ ∀ q, m1.get q =
      if q ∈ ins then m.get q - ws (Arc.placeTransition q tid) else m.get q := by
  induction ins generalizing m with
  | nil =>
    simp only [fireInputs, Option.some.injEq] at h
    subst h
    exact ⟨hm, fun q => by simp⟩
  | cons p rest ih =>
    have hp : p ∉ rest := (List.nodup_cons.mp hnd).1
    have hrest : rest.Nodup := (List.nodup_cons.mp hnd).2
    simp only [fireInputs] at h
    split at h
    · rename_i hc
      have hm' := Marking.set_WF hm p (m.get p - ws (Arc.placeTransition p tid))
      obtain ⟨hwf1, hget⟩ := ih _ hm' hrest h
      refine ⟨hwf1, fun q => ?_⟩
      rw [hget q, Marking.get_set hm p _ q]
      by_cases hq : q = p
      · subst hq
        rw [if_neg hp, if_pos rfl, if_pos (List.mem_cons_self q rest)]
      · by_cases hq2 : q ∈ rest
        · rw [if_pos hq2, if_neg hq, if_pos (List.mem_cons_of_mem p hq2)]
        · rw [if_neg hq2, if_neg hq,
            if_neg (fun hin => (List.mem_cons.mp hin).elim hq hq2)]
    · exact Option.noConfusion h

theorem fireOutputs_some_iff {caps : Nat → Nat} {ws : Arc → Nat} {tid : Nat}
    (outs : List Nat) (m : Marking) (b : Boundedness)
    (hm : m.WF) (hnd : outs.Nodup) :
    (∃ m2, (fireOutputs caps ws tid outs m b).1 = some m2) ↔
      ∀ p ∈ outs, ws (Arc.transitionPlace tid p) ≤ caps p ∧
        m.get p ≤ caps p - ws (Arc.transitionPlace tid p) := by
  induction outs generalizing m b with
  | nil => simp [fireOutputs]
  | cons p rest ih =>
    have hp : p ∉ rest := (List.nodup_cons.mp hnd).1
    have hrest : rest.Nodup := (List.nodup_cons.mp hnd).2
    simp only [fireOutputs]
    by_cases hc : ws (Arc.transitionPlace tid p) ≤ caps p ∧
        m.get p ≤ caps p - ws (Arc.transitionPlace tid p)
    · rw [if_pos hc]
      have hm' := Marking.set_WF hm p (m.get p + ws (Arc.transitionPlace tid p))
      rw [ih _ _ hm' hrest]
      constructor
      · intro h q hq
        rcases List.mem_cons.mp hq with h1 | h1
        · subst h1; exact hc
        · have := h q h1
          rwa [Marking.get_set hm p _ q, if_neg (fun he : q = p => hp (he ▸ h1))] at this
      · intro h q hq
        have := h q (List.mem_cons_of_mem p hq)
        rwa [Marking.get_set hm p _ q, if_neg (fun he : q = p => hp (he ▸ hq))]
    · rw [if_neg hc]
      constructor
      · rintro ⟨m2, hm2⟩; cases hm2
      · intro h; exact absurd (h p (List.mem_cons_self p rest)) hc

theorem fireOutputs_get {caps : Nat → Nat} {ws : Arc → Nat} {tid : Nat}
    (outs : List Nat) (m m2 : Marking) (b : Boundedness)
    (hm : m.WF) (hnd : outs.Nodup)
    (h : (fireOutputs caps ws tid outs m b).1 = some m2) :
    m2.WF ∧ ∀ q, m2.get q =
      if q ∈ outs then m.get q + ws (Arc.transitionPlace tid q) else m.get q := by
  induction outs generalizing m b with
  | nil =>
    simp only [fireOutputs, Option.some.injEq] at h
    subst h
    exact ⟨hm, fun q => by simp⟩
  | cons p rest ih =>
    have hp : p ∉ rest := (List.nodup_cons.mp hnd).1
    have hrest : rest.Nodup := (List.nodup_cons.mp hnd).2
    simp only [fireOutputs] at h
    split at h
    · rename_i hc
      have hm' := Marking.set_WF hm p (m.get p + ws (Arc.transitionPlace tid p))
      obtain ⟨hwf2, hget⟩ := ih _ _ hm' hrest h
      refine ⟨hwf2, fun q => ?_⟩
      rw [hget q, Marking.get_set hm p _ q]
      by_cases hq : q = p
      · subst hq
        rw [if_neg hp, if_pos rfl, if_pos (List.mem_cons_self q rest)]
      · by_cases hq2 : q ∈ rest
        · rw [if_pos hq2, if_neg hq, if_pos (List.mem_cons_of_mem p hq2)]
        · rw [if_neg hq2, if_neg hq,
            if_neg (fun hin => (List.mem_cons.mp hin).elim hq hq2)]
    · exact Option.noConfusion h

theorem fireOne_some_iff {caps : Nat → Nat} {ws : Arc → Nat}
    (io : TransitionArcs) (m : Marking) (hm : m.WF)
    (hin : io.inputs.Nodup) (hout : io.outputs.Nodup) :
    (∃ m2, fireOne caps ws io m = some m2) ↔ enabledSpec caps ws io m := by
  unfold fireOne
  cases hI : fireInputs ws io.id io.inputs m with
  | none =>
    have hni : ¬ ∀ p ∈ io.inputs, ws (Arc.placeTransition p io.id) ≤ m.get p := by
      intro hall
      obtain ⟨m1, hm1⟩ := (fireInputs_some_iff io.inputs m hm hin).mpr hall
      rw [hI] at hm1
      cases hm1
    constructor
    · rintro ⟨m2, h2⟩; cases h2
    · rintro ⟨h1, _⟩; exact absurd h1 hni
  | some m1 =>
    obtain ⟨hw1, hg1⟩ := fireInputs_get io.inputs m m1 hm hin hI
    have hmid : ∀ q, m1.get q = midGet ws io m q := fun q => hg1 q
    constructor
    · rintro ⟨m2, h2⟩
      have h2' : (fireOutputs caps ws io.id io.outputs m1 []).1 = some m2 := h2
      have hcond := (fireOutputs_some_iff io.outputs m1 [] hw1 hout).mp ⟨m2, h2'⟩
      refine ⟨(fireInputs_some_iff io.inputs m hm hin).mp ⟨m1, hI⟩, ?_⟩
      intro p hp
      have := hcond p hp
      rwa [hmid p] at this
    · rintro ⟨hins, houts⟩
      obtain ⟨m2, h2⟩ := (fireOutputs_some_iff io.outputs m1 [] hw1 hout).mpr
        (fun p hp => by rw [hmid p]; exact houts p hp)
      exact ⟨m2, h2⟩

theorem fireOne_get {caps : Nat → Nat} {ws : Arc → Nat}
    (io : TransitionArcs) (m m2 : Marking) (hm : m.WF)
    (hin : io.inputs.Nodup) (hout : io.outputs.Nodup)
    (h : fireOne caps ws io m = some m2) :
    m2.WF ∧ ∀ p, m2.get p = resultGet ws io m p := by
  unfold fireOne at h
  cases hI : fireInputs ws io.id io.inputs m with
  | none => rw [hI] at h; cases h
  | some m1 =>
    rw [hI] at h
    obtain ⟨hw1, hg1⟩ := fireInputs_get io.inputs m m1 hm hin hI
    have h' : (fireOutputs caps ws io.id io.outputs m1 []).1 = some m2 := h
    obtain ⟨hw2, hg2⟩ := fireOutputs_get io.outputs m1 m2 [] hw1 hout h'
    refine ⟨hw2, fun p => ?_⟩
    rw [hg2 p]
    unfold resultGet midGet
    by_cases hp : p ∈ io.outputs
    · rw [if_pos hp, if_pos hp, hg1 p]
    · rw [if_neg hp, if_neg hp, hg1 p]

theorem mem_fire_results {tios : List TransitionArcs} {m : Marking}
    {caps : Nat → Nat} {ws : Arc → Nat} {b : Boundedness} {l : Liveness}
    {t : Nat} {m2 : Marking} :
    (t, m2) ∈ (fire_transitions tios m caps ws b l).1 ↔
      ∃ io ∈ tios, io.id = t ∧ fireOne caps ws io m = some m2 := by
  rw [fire_transitions_fst, List.mem_filterMap]
  constructor
  · rintro ⟨io, hio, hmap⟩
    rcases Option.map_eq_some'.mp hmap with ⟨m3, hm3, heq⟩
    refine ⟨io, hio, congrArg Prod.fst heq, ?_⟩
    have hm2 : m3 = m2 := congrArg Prod.snd heq
    rw [← hm2]
    exact hm3
  · rintro ⟨io, hio, hid, hfo⟩
    refine ⟨io, hio, ?_⟩
    rw [hfo]
    simp [hid]

theorem transitionArcs_map_id (net : PetriNet) :
    net.transitionArcs.map (fun io => io.id) = net.transitions := by
  unfold PetriNet.transitionArcs
  induction net.transitions with
  | nil => rfl
  | cons t ts ih =>
    simp only [List.map_cons]
    rw [ih]

theorem transitionArcs_inputs {net : PetriNet} {io : TransitionArcs}
    (h : io ∈ net.transitionArcs) :
    io.inputs = net.arcs.filterMap fun a =>
      match a with
      | Arc.placeTransition source target =>
        if target = io.id then some source else none
      | Arc.transitionPlace _ _ => none := by
  obtain ⟨tid, _, rfl⟩ := List.mem_map.mp h
  rfl

theorem transitionArcs_outputs {net : PetriNet} {io : TransitionArcs}
    (h : io ∈ net.transitionArcs) :
    io.outputs = net.arcs.filterMap fun a =>
      match a with
      | Arc.placeTransition _ _ => none
      | Arc.transitionPlace source target =>
        if source = io.id then some target else none := by
  obtain ⟨tid, _, rfl⟩ := List.mem_map.mp h
  rfl

theorem inputArcSel_eq_some {tid : Nat} {a : Arc} {s : Nat}
    (h : (match a with
      | Arc.placeTransition source target =>
        if target = tid then some source else none
      | Arc.transitionPlace _ _ => none) = some s) :
    a = Arc.placeTransition s tid := by
  cases a with
  | placeTransition src tgt =>
    have h2 : (if tgt = tid then some src else none) = some s := h
    by_cases h1 : tgt = tid
    · rw [if_pos h1] at h2
      cases h2
      rw [h1]
    · rw [if_neg h1] at h2
      cases h2
  | transitionPlace src tgt =>
    have h2 : (none : Option Nat) = some s := h
    cases h2

theorem outputArcSel_eq_some {tid : Nat} {a : Arc} {s : Nat}
    (h : (match a with
      | Arc.placeTransition _ _ => none
      | Arc.transitionPlace source target =>
        if source = tid then some target else none) = some s) :
    a = Arc.transitionPlace tid s := by
  cases a with
  | transitionPlace src tgt =>
    have h2 : (if src = tid then some tgt else none) = some s := h
    by_cases h1 : src = tid
    · rw [if_pos h1] at h2
      cases h2
      rw [h1]
    · rw [if_neg h1] at h2
      cases h2
  | placeTransition src tgt =>
    have h2 : (none : Option Nat) = some s := h
    cases h2

theorem transitionArcs_inputs_nodup {net : PetriNet} {io : TransitionArcs}
    (hA : net.arcs.Nodup) (h : io ∈ net.transitionArcs) : io.inputs.Nodup := by
  rw [transitionArcs_inputs h]
  refine List.Nodup.filterMap ?_ hA
  intro a a' s hs hs'
  rw [Option.mem_def] at hs hs'
  rw [inputArcSel_eq_some hs, inputArcSel_eq_some hs']

theorem transitionArcs_outputs_nodup {net : PetriNet} {io : TransitionArcs}
    (hA : net.arcs.Nodup) (h : io ∈ net.transitionArcs) : io.outputs.Nodup := by
  rw [transitionArcs_outputs h]
  refine List.Nodup.filterMap ?_ hA
  intro a a' s hs hs'
  rw [Option.mem_def] at hs hs'
  rw [outputArcSel_eq_some hs, outputArcSel_eq_some hs']

/-- Claim C3: fire_transitions produces a resulting marking for a
transition exactly when the transition is enabled (input sufficiency with
checked subtraction, and capacity-minus-weight checks on outputs), and
the resulting marking is the source marking with input weights subtracted
and output weights added. The Boundedness and Liveness accumulators do
not influence the result. -/
theorem claim3_firing_rule (net : PetriNet) (m : Marking)
    (io : TransitionArcs) (hm : m.WF) (harcs : net.arcs.Nodup)
    (htr : net.transitions.Nodup) (hio : io ∈ net.transitionArcs)
    (b : Boundedness) (l : Liveness) :
    ((∃ m2, (io.id, m2) ∈
        (fire_transitions net.transitionArcs m net.capacities net.weights b l).1) ↔
      enabledSpec net.capacities net.weights io m) ∧
    ∀ m2, (io.id, m2) ∈
        (fire_transitions net.transitionArcs m net.capacities net.weights b l).1 →
      ∀ p, m2.get p = resultGet net.weights io m p := by
  have hids : (net.transitionArcs.map fun io => io.id).Nodup := by
    rw [transitionArcs_map_id]; exact htr
  have hin := transitionArcs_inputs_nodup harcs hio
  have hout := transitionArcs_outputs_nodup harcs hio
  have hmem : ∀ m2, (io.id, m2) ∈
      (fire_transitions net.transitionArcs m net.capacities net.weights b l).1 ↔
      fireOne net.capacities net.weights io m = some m2 := by
    intro m2
    rw [mem_fire_results]
    constructor
    · rintro ⟨io', hio', hid, hfo⟩
      have : io' = io := List.inj_on_of_nodup_map hids hio' hio hid
      rw [← this]
      exact hfo
    · intro hfo
      exact ⟨io, hio, rfl, hfo⟩
  constructor
  · rw [← fireOne_some_iff io m hm hin hout]
    constructor
    · rintro ⟨m2, h2⟩; exact ⟨m2, (hmem m2).mp h2⟩
    · rintro ⟨m2, h2⟩; exact ⟨m2, (hmem m2).mpr h2⟩
  · intro m2 h2
    exact (fireOne_get io m m2 hm hin hout ((hmem m2).mp h2)).2

/-- Witness for claim C3 at a concrete net, marking and transition. -/
theorem claim3_firing_rule_witness :
    (Marking.WF ⟨[(0, 1)]⟩ ∧ netW3.arcs.Nodup ∧ netW3.transitions.Nodup ∧
      ioW3 ∈ netW3.transitionArcs) ∧
    (((∃ m2, (ioW3.id, m2) ∈
        (fire_transitions netW3.transitionArcs ⟨[(0, 1)]⟩ netW3.capacities
          netW3.weights (Boundedness.new netW3) (Liveness.new netW3)).1) ↔
      enabledSpec netW3.capacities netW3.weights ioW3 ⟨[(0, 1)]⟩) ∧
    ∀ m2, (ioW3.id, m2) ∈
        (fire_transitions netW3.transitionArcs ⟨[(0, 1)]⟩ netW3.capacities
          netW3.weights (Boundedness.new netW3) (Liveness.new netW3)).1 →
      ∀ p, m2.get p = resultGet netW3.weights ioW3 ⟨[(0, 1)]⟩ p) :=
  ⟨⟨by decide, by decide, by decide, by decide⟩,
    claim3_firing_rule netW3 ⟨[(0, 1)]⟩ ioW3 (by decide) (by decide) (by decide)
      (by decide) (Boundedness.new netW3) (Liveness.new netW3)⟩

/-- Claim C5: firing is transactional with respect to the marking - every
attempt is computed from the same source marking (the result list is a
pointwise filterMap over the transitions, independent of the accumulator
state and of the other attempts), a transition either contributes a fully
committed fresh marking or nothing, and a disabled transition signals no
error and contributes nothing to the returned collection. -/
theorem claim5_transactional (tios : List TransitionArcs) (m : Marking)
    (caps : Nat → Nat) (ws : Arc → Nat) (b : Boundedness) (l : Liveness)
    (hids : (tios.map fun io => io.id).Nodup) :
    ((fire_transitions tios m caps ws b l).1
      = tios.filterMap fun io =>
          (fireOne caps ws io m).map fun m2 => (io.id, m2)) ∧
    ∀ io ∈ tios, fireOne caps ws io m = none →
      ∀ m2, (io.id, m2) ∉ (fire_transitions tios m caps ws b l).1 := by
  refine ⟨fire_transitions_fst tios m caps ws b l, ?_⟩
  intro io hio hnone m2 hmem
  obtain ⟨io', hio', hid, hfo⟩ := mem_fire_results.mp hmem
  have : io' = io := List.inj_on_of_nodup_map hids hio' hio hid
  rw [this, hnone] at hfo
  cases hfo

/-- Witness for claim C5 at a concrete net and marking: the transition is
disabled from the empty marking and contributes nothing. -/
theorem claim5_transactional_witness :
    ((netW3.transitionArcs.map fun io => io.id).Nodup) ∧
    (((fire_transitions netW3.transitionArcs ⟨[]⟩ netW3.capacities netW3.weights
        (Boundedness.new netW3) (Liveness.new netW3)).1
      = netW3.transitionArcs.filterMap fun io =>
          (fireOne netW3.capacities netW3.weights io ⟨[]⟩).map
            fun m2 => (io.id, m2)) ∧
    ∀ io ∈ netW3.transitionArcs,
        fireOne netW3.capacities netW3.weights io ⟨[]⟩ = none →
      ∀ m2, (io.id, m2) ∉
        (fire_transitions netW3.transitionArcs ⟨[]⟩ netW3.capacities netW3.weights
          (Boundedness.new netW3) (Liveness.new netW3)).1) :=
  ⟨by decide, claim5_transactional netW3.transitionArcs ⟨[]⟩ netW3.capacities
    netW3.weights (Boundedness.new netW3) (Liveness.new netW3) (by decide)⟩

/-! Unfolding equations for the firing fold and the BFS loop. -/

theorem fire_transitions_cons_none (io : TransitionArcs)
    (rest : List TransitionArcs) (m : Marking) (caps : Nat → Nat)
    (ws : Arc → Nat) (b : Boundedness) (l : Liveness)
    (h : fireInputs ws io.id io.inputs m = none) :
    fire_transitions (io :: rest) m caps ws b l
      = fire_transitions rest m caps ws b l := by
  simp [fire_transitions, h]

theorem fire_transitions_cons_outfail (io : TransitionArcs)
    (rest : List TransitionArcs) (m : Marking) (caps : Nat → Nat)
    (ws : Arc → Nat) (b : Boundedness) (l : Liveness) (m1 : Marking)
    (b1 : Boundedness)
    (h : fireInputs ws io.id io.inputs m = some m1)
    (h2 : fireOutputs caps ws io.id io.outputs m1 b = (none, b1)) :
    fire_transitions (io :: rest) m caps ws b l
      = fire_transitions rest m caps ws b1 l := by
  simp [fire_transitions, h, h2]

theorem fire_transitions_cons_success (io : TransitionArcs)
    (rest : List TransitionArcs) (m : Marking) (caps : Nat → Nat)
    (ws : Arc → Nat) (b : Boundedness) (l : Liveness) (m1 m2 : Marking)
    (b1 : Boundedness)
    (h : fireInputs ws io.id io.inputs m = some m1)
    (h2 : fireOutputs caps ws io.id io.outputs m1 b = (some m2, b1)) :
    fire_transitions (io :: rest) m caps ws b l
      = ((io.id, m2) ::
          (fire_transitions rest m caps ws b1 (Liveness.update l io.id Live.L1)).1,
        (fire_transitions rest m caps ws b1 (Liveness.update l io.id Live.L1)).2) := by
  simp [fire_transitions, h, h2]

theorem bfsLoop_queue_nil {σ : Type} (T : TableOps σ)
    (tios : List TransitionArcs) (caps : Nat → Nat) (ws : Arc → Nat)
    (fuel : Nat) {s : BFSState σ} (h : s.queue = []) :
    bfsLoop T tios caps ws fuel s = s := by
  cases fuel with
  | zero => rfl
  | succ fuel => simp [bfsLoop, h]

theorem bfsLoop_queue_cons {σ : Type} (T : TableOps σ)
    (tios : List TransitionArcs) (caps : Nat → Nat) (ws : Arc → Nat)
    (fuel : Nat) {s : BFSState σ} {sid : Nat} {sm : Marking}
    {branches : List (Nat × Marking)}
    {q2 : List (Nat × Marking × List (Nat × Marking))}
    (h : s.queue = (sid, sm, branches) :: q2) :
    bfsLoop T tios caps ws (fuel + 1) s =
      bfsLoop T tios caps ws fuel
        ⟨(exploreBranches T tios caps ws branches
            ⟨s.markings, q2, [], s.boundedness, s.liveness⟩).markings,
          (exploreBranches T tios caps ws branches
            ⟨s.markings, q2, [], s.boundedness, s.liveness⟩).queue,
          s.rows ++ [(sid, sm, (exploreBranches T tios caps ws branches
            ⟨s.markings, q2, [], s.boundedness, s.liveness⟩).conts)],
          (exploreBranches T tios caps ws branches
            ⟨s.markings, q2, [], s.boundedness, s.liveness⟩).boundedness,
          (exploreBranches T tios caps ws branches
            ⟨s.markings, q2, [], s.boundedness, s.liveness⟩).liveness⟩ := by
  simp [bfsLoop, h]

theorem exploreBranches_found {σ : Type} (T : TableOps σ)
    (tios : List TransitionArcs) (caps : Nat → Nat) (ws : Arc → Nat)
    (tid : Nat) (rm : Marking) (rest : List (Nat × Marking))
    (s : ExploreState σ) (eid : Nat) (h : T.look_up s.markings rm = some eid) :
    exploreBranches T tios caps ws ((tid, rm) :: rest) s
      = exploreBranches T tios caps ws rest
          { s with conts := s.conts ++ [(tid, eid)] } := by
  simp [exploreBranches, h]

theorem exploreBranches_new {σ : Type} (T : TableOps σ)
    (tios : List TransitionArcs) (caps : Nat → Nat) (ws : Arc → Nat)
    (tid : Nat) (rm : Marking) (rest : List (Nat × Marking))
    (s : ExploreState σ) (h : T.look_up s.markings rm = none) :
    exploreBranches T tios caps ws ((tid, rm) :: rest) s
      = exploreBranches T tios caps ws rest
          { markings := (T.remember s.markings rm).2
            queue := s.queue ++ [((T.remember s.markings rm).1, rm,
              (fire_transitions tios rm caps ws s.boundedness s.liveness).1)]
            conts := s.conts ++ [(tid, (T.remember s.markings rm).1)]
            boundedness :=
              (fire_transitions tios rm caps ws s.boundedness s.liveness).2.1
            liveness :=
              (fire_transitions tios rm caps ws s.boundedness s.liveness).2.2 } := by
  simp [exploreBranches, h]

/-! Claim C10: liveness entries stay at L0 or L1. -/

theorem liveness_update_mem {l : Liveness} {tid : Nat} {x : Live}
    (hx : x ∈ Liveness.update l tid Live.L1) : x ∈ l ∨ x = Live.L1 := by
  rcases List.mem_or_eq_of_mem_set hx with h | h
  · exact Or.inl h
  · by_cases htid : tid < l.length
    · rw [List.getD_eq_getElem l Live.L0 htid] at h
      unfold Live.max at h
      split at h
      · exact Or.inl (h ▸ List.getElem_mem htid)
      · exact Or.inr h
    · rw [List.getD_eq_default l Live.L0 (Nat.le_of_not_lt htid)] at h
      exact Or.inr h

theorem fire_liveness_facts (tios : List TransitionArcs) (m : Marking)
    (caps : Nat → Nat) (ws : Arc → Nat) (b : Boundedness) (l : Liveness) :
    (fire_transitions tios m caps ws b l).2.2.length = l.length ∧
    ∀ x ∈ (fire_transitions tios m caps ws b l).2.2, x ∈ l ∨ x = Live.L1 := by
  induction tios generalizing b l with
  | nil => exact ⟨rfl, fun x hx => Or.inl hx⟩
  | cons io rest ih =>
    cases hin : fireInputs ws io.id io.inputs m with
    | none =>
      rw [fire_transitions_cons_none io rest m caps ws b l hin]
      exact ih b l
    | some m1 =>
      cases hout : fireOutputs caps ws io.id io.outputs m1 b with
      | mk o b1 =>
        cases o with
        | none =>
          rw [fire_transitions_cons_outfail io rest m caps ws b l m1 b1 hin hout]
          exact ih b1 l
        | some m2 =>
          rw [fire_transitions_cons_success io rest m caps ws b l m1 m2 b1 hin hout]
          have hlen : (Liveness.update l io.id Live.L1).length = l.length := by
            simp [Liveness.update]
          obtain ⟨ihlen, ihmem⟩ := ih b1 (Liveness.update l io.id Live.L1)
          refine ⟨by rw [ihlen, hlen], ?_⟩
          intro x hx
          rcases ihmem x hx with h | h
          · exact liveness_update_mem h
          · exact Or.inr h

theorem exploreBranches_liveness {σ : Type} (T : TableOps σ)
    (tios : List TransitionArcs) (caps : Nat → Nat) (ws : Arc → Nat)
    (br : List (Nat × Marking)) (s : ExploreState σ) :
    (exploreBranches T tios caps ws br s).liveness.length = s.liveness.length ∧
    ∀ x ∈ (exploreBranches T tios caps ws br s).liveness,
      x ∈ s.liveness ∨ x = Live.L1 := by
  induction br generalizing s with
  | nil => exact ⟨rfl, fun x hx => Or.inl hx⟩
  | cons pb rest ih =>
    obtain ⟨tid, rm⟩ := pb
    cases hlk : T.look_up s.markings rm with
    | some eid =>
      rw [exploreBranches_found T tios caps ws tid rm rest s eid hlk]
      exact ih _
    | none =>
      rw [exploreBranches_new T tios caps ws tid rm rest s hlk]
      obtain ⟨ihlen, ihmem⟩ := ih
        { markings := (T.remember s.markings rm).2
          queue := s.queue ++ [((T.remember s.markings rm).1, rm,
            (fire_transitions tios rm caps ws s.boundedness s.liveness).1)]
          conts := s.conts ++ [(tid, (T.remember s.markings rm).1)]
          boundedness :=
            (fire_transitions tios rm caps ws s.boundedness s.liveness).2.1
          liveness :=
            (fire_transitions tios rm caps ws s.boundedness s.liveness).2.2 }
      obtain ⟨flen, fmem⟩ :=
        fire_liveness_facts tios rm caps ws s.boundedness s.liveness
      refine ⟨by rw [ihlen]; exact flen, ?_⟩
      intro x hx
      rcases ihmem x hx with h | h
      · rcases fmem x h with h2 | h2
        · exact Or.inl h2
        · exact Or.inr h2
      · exact Or.inr h

theorem bfsLoop_liveness {σ : Type} (T : TableOps σ)
    (tios : List TransitionArcs) (caps : Nat → Nat) (ws : Arc → Nat)
    (fuel : Nat) (s : BFSState σ) :
    (bfsLoop T tios caps ws fuel s).liveness.length = s.liveness.length ∧
    ∀ x ∈ (bfsLoop T tios caps ws fuel s).liveness,
      x ∈ s.liveness ∨ x = Live.L1 := by
  induction fuel generalizing s with
  | zero => exact ⟨rfl, fun x hx => Or.inl hx⟩
  | succ fuel ih =>
    cases hq : s.queue with
    | nil =>
      rw [bfsLoop_queue_nil T tios caps ws (fuel + 1) hq]
      exact ⟨rfl, fun x hx => Or.inl hx⟩
    | cons e q2 =>
      obtain ⟨sid, sm, branches⟩ := e
      rw [bfsLoop_queue_cons T tios caps ws fuel hq]
      obtain ⟨elen, emem⟩ := exploreBranches_liveness T tios caps ws branches
        ⟨s.markings, q2, [], s.boundedness, s.liveness⟩
      obtain ⟨ilen, imem⟩ := ih _
      refine ⟨by rw [ilen]; exact elen, ?_⟩
      intro x hx
      rcases imem x hx with h | h
      · rcases emem x h with h2 | h2
        · exact Or.inl h2
        · exact Or.inr h2
      · exact Or.inr h

theorem reachability_analysis_eq (fuel : Nat) (net : PetriNet) :
    reachability_analysis fuel net =
      if (runAnalysis listTable [] fuel net).queue = []
      then some ⟨(runAnalysis listTable [] fuel net).rows,
        (runAnalysis listTable [] fuel net).boundedness,
        (runAnalysis listTable [] fuel net).liveness⟩
      else none := rfl

theorem runAnalysis_state_eq {σ : Type} (T : TableOps σ) (empty : σ)
    (fuel : Nat) (net : PetriNet) :
    runAnalysis T empty fuel net =
      bfsLoop T net.transitionArcs net.capacities net.weights fuel
        ⟨(T.remember empty net.initial_marking).2,
          [((T.remember empty net.initial_marking).1, net.initial_marking,
            (fire_transitions net.transitionArcs net.initial_marking
              net.capacities net.weights (Boundedness.new net)
              (Liveness.new net)).1)], [],
          (fire_transitions net.transitionArcs net.initial_marking
            net.capacities net.weights (Boundedness.new net)
            (Liveness.new net)).2.1,
          (fire_transitions net.transitionArcs net.initial_marking
            net.capacities net.weights (Boundedness.new net)
            (Liveness.new net)).2.2⟩ := rfl

theorem runAnalysis_liveness {σ : Type} (T : TableOps σ) (empty : σ)
    (fuel : Nat) (net : PetriNet) :
    (runAnalysis T empty fuel net).liveness.length = net.transitions.length ∧
    ∀ x ∈ (runAnalysis T empty fuel net).liveness,
      x = Live.L0 ∨ x = Live.L1 := by
  rw [runAnalysis_state_eq]
  obtain ⟨blen, bmem⟩ := bfsLoop_liveness T net.transitionArcs net.capacities
    net.weights fuel
    ⟨(T.remember empty net.initial_marking).2,
      [((T.remember empty net.initial_marking).1, net.initial_marking,
        (fire_transitions net.transitionArcs net.initial_marking
          net.capacities net.weights (Boundedness.new net)
          (Liveness.new net)).1)], [],
      (fire_transitions net.transitionArcs net.initial_marking
        net.capacities net.weights (Boundedness.new net)
        (Liveness.new net)).2.1,
      (fire_transitions net.transitionArcs net.initial_marking
        net.capacities net.weights (Boundedness.new net)
        (Liveness.new net)).2.2⟩
  obtain ⟨flen, fmem⟩ := fire_liveness_facts net.transitionArcs
    net.initial_marking net.capacities net.weights (Boundedness.new net)
    (Liveness.new net)
  constructor
  · rw [blen]
    rw [flen]
    simp [Liveness.new]
  · intro x hx
    rcases bmem x hx with h | h
    · rcases fmem x h with h2 | h2
      · left
        exact List.eq_of_mem_replicate h2
      · right; exact h2
    · right; exact h

/-- Claim C10: every Liveness entry after reachability_analysis is L0 or
L1 (entries start at L0 and the only update ever applied is L1);
consequently is_quasi_live() is false for every net, and is_live() is
true exactly when the net has no transitions. -/
theorem claim10_liveness_classes (net : PetriNet) (fuel : Nat)
    (a : ReachabilityAnalysis) (h : reachability_analysis fuel net = some a) :
    (∀ x ∈ a.liveness, x = Live.L0 ∨ x = Live.L1) ∧
    a.is_quasi_live = false ∧
    (a.is_live = true ↔ net.transitions = []) := by
  have hfacts : a.liveness.length = net.transitions.length ∧
      ∀ x ∈ a.liveness, x = Live.L0 ∨ x = Live.L1 := by
    rw [reachability_analysis_eq] at h
    split at h
    · cases h
      exact runAnalysis_liveness listTable [] fuel net
    · cases h
  obtain ⟨hlen, hmem⟩ := hfacts
  have hany : (a.liveness.any fun lv => decide (lv = Live.L4)) = false := by
    rw [List.any_eq_false]
    intro x hx
    rcases hmem x hx with h1 | h1 <;> simp [h1]
  refine ⟨hmem, ?_, ?_⟩
  · unfold ReachabilityAnalysis.is_quasi_live
    rw [hany, Bool.and_false]
  · unfold ReachabilityAnalysis.is_live
    constructor
    · intro hall
      cases hl : a.liveness with
      | nil =>
        rw [hl] at hlen
        exact List.eq_nil_of_length_eq_zero hlen.symm
      | cons x xs =>
        exfalso
        have hx : x ∈ a.liveness := by rw [hl]; exact List.mem_cons_self _ _
        have := List.all_eq_true.mp hall x hx
        rcases hmem x hx with h1 | h1 <;> simp [h1] at this
    · intro htr
      have hnil : a.liveness = [] :=
        List.eq_nil_of_length_eq_zero (by rw [hlen, htr]; rfl)
      rw [hnil]
      rfl

/-- Witness for claim C10 at a concrete terminating net. -/
theorem claim10_liveness_classes_witness :
    reachability_analysis 2 netW3 = some aW10 ∧
    ((∀ x ∈ aW10.liveness, x = Live.L0 ∨ x = Live.L1) ∧
      aW10.is_quasi_live = false ∧
      (aW10.is_live = true ↔ netW3.transitions = [])) :=
  ⟨by decide, claim10_liveness_classes netW3 2 aW10 (by decide)⟩

theorem range_map_add_succ (c n : Nat) :
    (List.range (n + 1)).map (fun j => c + j)
      = c :: (List.range n).map fun j => (c + 1) + j := by
  rw [List.range_succ_eq_map, List.map_cons, List.map_map]
  congr 1
  apply List.map_congr_left
  intro j _
  simp [Function.comp]
  omega

theorem exploreBranches_ids (tios : List TransitionArcs) (caps : Nat → Nat)
    (ws : Arc → Nat) (br : List (Nat × Marking)) (c : Nat)
    (s : ExploreState (List (Marking × Nat)))
    (hlen : s.markings.length = c + s.queue.length)
    (hq : s.queue.map (fun e => e.1)
      = (List.range s.queue.length).map fun j => c + j) :
    (exploreBranches listTable tios caps ws br s).markings.length
        = c + (exploreBranches listTable tios caps ws br s).queue.length ∧
    (exploreBranches listTable tios caps ws br s).queue.map (fun e => e.1)
        = (List.range
            (exploreBranches listTable tios caps ws br s).queue.length).map
          fun j => c + j := by
  induction br generalizing s with
  | nil => exact ⟨hlen, hq⟩
  | cons pb rest ih =>
    obtain ⟨tid, rm⟩ := pb
    cases hlk : listTable.look_up s.markings rm with
    | some eid =>
      rw [exploreBranches_found listTable tios caps ws tid rm rest s eid hlk]
      exact ih _ hlen hq
    | none =>
      rw [exploreBranches_new listTable tios caps ws tid rm rest s hlk]
      refine ih _ ?_ ?_
      · show ((Markings.remember s.markings rm).2).length
          = c + (s.queue ++ [((Markings.remember s.markings rm).1, rm,
            (fire_transitions tios rm caps ws s.boundedness s.liveness).1)]).length
        simp only [Markings.remember, List.length_append, List.length_cons,
          List.length_nil]
        omega
      · show (s.queue ++ [((Markings.remember s.markings rm).1, rm,
            (fire_transitions tios rm caps ws s.boundedness s.liveness).1)]).map
            (fun e => e.1)
          = (List.range ((s.queue ++ [((Markings.remember s.markings rm).1, rm,
              (fire_transitions tios rm caps ws s.boundedness s.liveness).1)]).length)).map
            fun j => c + j
        rw [List.map_append, hq]
        have hid : (Markings.remember s.markings rm).1 = c + s.queue.length := by
          simp only [Markings.remember]
          omega
        simp only [List.length_append, List.length_cons, List.length_nil,
          List.map_cons, List.map_nil, hid]
        rw [List.range_succ, List.map_append]
        simp

theorem bfsLoop_ids (tios : List TransitionArcs) (caps : Nat → Nat)
    (ws : Arc → Nat) (fuel : Nat) (s : BFSState (List (Marking × Nat)))
    (hinv : IdInv s) : IdInv (bfsLoop listTable tios caps ws fuel s) := by
  induction fuel generalizing s with
  | zero => exact hinv
  | succ fuel ih =>
    cases hqq : s.queue with
    | nil =>
      rw [bfsLoop_queue_nil listTable tios caps ws (fuel + 1) hqq]
      exact hinv
    | cons e q2 =>
      obtain ⟨sid, sm, branches⟩ := e
      rw [bfsLoop_queue_cons listTable tios caps ws fuel hqq]
      apply ih
      obtain ⟨hlen, hrow, hq⟩ := hinv
      rw [hqq] at hlen hq
      simp only [List.length_cons, List.map_cons] at hlen hq
      rw [range_map_add_succ] at hq
      have hsid : sid = s.rows.length := ((List.cons.injEq _ _ _ _).mp hq).1
      have hq2 : q2.map (fun e => e.1)
          = (List.range q2.length).map fun j => (s.rows.length + 1) + j :=
        ((List.cons.injEq _ _ _ _).mp hq).2
      obtain ⟨elen, eqq⟩ := exploreBranches_ids tios caps ws branches
        (s.rows.length + 1) ⟨s.markings, q2, [], s.boundedness, s.liveness⟩
        (by simp only []; omega) hq2
      refine ⟨?_, ?_, ?_⟩
      · show (exploreBranches listTable tios caps ws branches
            ⟨s.markings, q2, [], s.boundedness, s.liveness⟩).markings.length
          = (s.rows ++ [(sid, sm, (exploreBranches listTable tios caps ws branches
              ⟨s.markings, q2, [], s.boundedness, s.liveness⟩).conts)]).length
            + (exploreBranches listTable tios caps ws branches
              ⟨s.markings, q2, [], s.boundedness, s.liveness⟩).queue.length
        rw [List.length_append]
        simp only [List.length_cons, List.length_nil]
        omega
      · show (s.rows ++ [(sid, sm, (exploreBranches listTable tios caps ws branches
            ⟨s.markings, q2, [], s.boundedness, s.liveness⟩).conts)]).map (fun r => r.1)
          = List.range ((s.rows ++ [(sid, sm, (exploreBranches listTable tios caps ws
              branches ⟨s.markings, q2, [], s.boundedness, s.liveness⟩).conts)]).length)
        rw [List.map_append, hrow, List.length_append]
        simp only [List.map_cons, List.map_nil, List.length_cons, List.length_nil]
        rw [hsid, List.range_succ]
      · show (exploreBranches listTable tios caps ws branches
            ⟨s.markings, q2, [], s.boundedness, s.liveness⟩).queue.map (fun e => e.1)
          = (List.range ((exploreBranches listTable tios caps ws branches
              ⟨s.markings, q2, [], s.boundedness, s.liveness⟩).queue.length)).map
            fun j => (s.rows ++ [(sid, sm, (exploreBranches listTable tios caps ws
              branches ⟨s.markings, q2, [], s.boundedness, s.liveness⟩).conts)]).length + j
        rw [List.length_append]
        simp only [List.length_cons, List.length_nil]
        exact eqq

theorem runAnalysis_IdInv (fuel : Nat) (net : PetriNet) :
    IdInv (runAnalysis listTable [] fuel net) := by
  rw [runAnalysis_state_eq]
  apply bfsLoop_ids
  refine ⟨?_, rfl, ?_⟩
  · simp [listTable, Markings.remember]
  · simp only [listTable, Markings.remember, List.map_cons, List.map_nil]
    rfl

/-- Claim C6: remember assigns the id equal to the table size before
insertion, and in the completed analysis the i-th row carries MarkingId i
(ids are dense, sequential from 0, in BFS discovery order). -/
theorem claim6_marking_ids (net : PetriNet) (fuel : Nat)
    (a : ReachabilityAnalysis) (h : reachability_analysis fuel net = some a) :
    (∀ (ms : List (Marking × Nat)) (m : Marking),
      (Markings.remember ms m).1 = ms.length) ∧
    ∀ i, (hi : i < a.rows.length) → (a.rows.get ⟨i, hi⟩).1 = i := by
  refine ⟨fun ms m => rfl, ?_⟩
  rw [reachability_analysis_eq] at h
  split at h
  · cases h
    intro i hi
    have hi2 : i < (runAnalysis listTable [] fuel net).rows.length := hi
    have hrow := (runAnalysis_IdInv fuel net).row_ids
    have h1 := congrArg (fun l => l[i]?) hrow
    simp only [List.getElem?_map] at h1
    rw [List.getElem?_range hi2] at h1
    rw [List.getElem?_eq_getElem hi2] at h1
    simp only [Option.map_some', Option.some.injEq] at h1
    exact h1
  · cases h

/-- Witness for claim C6 at a concrete terminating net. -/
theorem claim6_marking_ids_witness :
    reachability_analysis 2 netW3 = some aW6 ∧
    ((∀ (ms : List (Marking × Nat)) (m : Marking),
        (Markings.remember ms m).1 = ms.length) ∧
      ∀ i, (hi : i < aW6.rows.length) → (aW6.rows.get ⟨i, hi⟩).1 = i) :=
  ⟨by decide, claim6_marking_ids netW3 2 aW6 (by decide)⟩

theorem look_up_none_iff (ms : List (Marking × Nat)) (m : Marking) :
    Markings.look_up ms m = none ↔ m ∉ tableKeys ms := by
  unfold Markings.look_up tableKeys
  rw [Option.map_eq_none', List.find?_eq_none]
  constructor
  · intro h hmem
    obtain ⟨e, he, heq⟩ := List.mem_map.mp hmem
    have h2 := h e he
    rw [heq] at h2
    simp at h2
  · intro h e he
    simp only [beq_iff_eq]
    intro heq
    apply h
    exact heq ▸ List.mem_map_of_mem (fun x => x.1) he

theorem look_up_some_mem {ms : List (Marking × Nat)} {m : Marking} {i : Nat}
    (h : Markings.look_up ms m = some i) : m ∈ tableKeys ms := by
  unfold Markings.look_up at h
  rcases Option.map_eq_some'.mp h with ⟨e, he, _⟩
  have hpred := List.find?_some he
  have hm : e.1 = m := by simpa using hpred
  have hmem : e ∈ ms := List.mem_of_find?_eq_some he
  exact hm ▸ List.mem_map_of_mem _ hmem

theorem exploreBranches_search (net : PetriNet) (br : List (Nat × Marking))
    (s : ExploreState (List (Marking × Nat)))
    (hnd : (tableKeys s.markings).Nodup)
    (hbr : ∀ p ∈ br, Reachable net p.2) :
    ∃ qNew,
      (exploreBranches listTable net.transitionArcs net.capacities
          net.weights br s).queue = s.queue ++ qNew ∧
      tableKeys (exploreBranches listTable net.transitionArcs net.capacities
          net.weights br s).markings
        = tableKeys s.markings ++ queueMarks qNew ∧
      (tableKeys (exploreBranches listTable net.transitionArcs net.capacities
          net.weights br s).markings).Nodup ∧
      (∀ e ∈ qNew, e.2.2 = succs net e.2.1 ∧ Reachable net e.2.1) ∧
      (∀ p ∈ br, p.2 ∈ tableKeys (exploreBranches listTable net.transitionArcs
          net.capacities net.weights br s).markings) := by
  induction br generalizing s with
  | nil =>
    refine ⟨[], by simp [exploreBranches], by simp [exploreBranches, queueMarks],
      hnd, by simp, by simp [exploreBranches]⟩
  | cons pb rest ih =>
    obtain ⟨tid, rm⟩ := pb
    have hbrrest : ∀ p ∈ rest, Reachable net p.2 := fun p hp =>
      hbr p (List.mem_cons_of_mem _ hp)
    cases hlk : listTable.look_up s.markings rm with
    | some eid =>
      rw [exploreBranches_found listTable net.transitionArcs net.capacities
        net.weights tid rm rest s eid hlk]
      obtain ⟨qNew, h1, h2, h3, h4, h5⟩ := ih
        { s with conts := s.conts ++ [(tid, eid)] } hnd hbrrest
      refine ⟨qNew, h1, h2, h3, h4, ?_⟩
      intro p hp
      rcases List.mem_cons.mp hp with hph | hph
      · rw [hph]
        rw [h2]
        exact List.mem_append_left _ (look_up_some_mem hlk)
      · exact h5 p hph
    | none =>
      rw [exploreBranches_new listTable net.transitionArcs net.capacities
        net.weights tid rm rest s hlk]
      have hkeys2 : tableKeys ((listTable.remember s.markings rm).2)
          = tableKeys s.markings ++ [rm] := by
        simp [listTable, Markings.remember, tableKeys]
      have hnd2 : (tableKeys ((listTable.remember s.markings rm).2)).Nodup := by
        rw [hkeys2]
        have hni : rm ∉ tableKeys s.markings := (look_up_none_iff _ _).mp hlk
        rw [List.nodup_append]
        refine ⟨hnd, List.nodup_singleton _, ?_⟩
        intro x hx hx2
        rw [List.mem_singleton] at hx2
        rw [hx2] at hx
        exact hni hx
      obtain ⟨qNew, h1, h2, h3, h4, h5⟩ := ih
        { markings := (listTable.remember s.markings rm).2
          queue := s.queue ++ [((listTable.remember s.markings rm).1, rm,
            (fire_transitions net.transitionArcs rm net.capacities net.weights
              s.boundedness s.liveness).1)]
          conts := s.conts ++ [(tid, (listTable.remember s.markings rm).1)]
          boundedness := (fire_transitions net.transitionArcs rm net.capacities
            net.weights s.boundedness s.liveness).2.1
          liveness := (fire_transitions net.transitionArcs rm net.capacities
            net.weights s.boundedness s.liveness).2.2 } hnd2 hbrrest
      refine ⟨((listTable.remember s.markings rm).1, rm,
        (fire_transitions net.transitionArcs rm net.capacities net.weights
          s.boundedness s.liveness).1) :: qNew, ?_, ?_, h3, ?_, ?_⟩
      · rw [h1]
        simp
      · rw [h2, hkeys2]
        simp [queueMarks]
      · intro e he
        rcases List.mem_cons.mp he with heh | heh
        · rw [heh]
          exact ⟨fire_transitions_fst_succs net rm s.boundedness s.liveness,
            hbr (tid, rm) (List.mem_cons_self _ _)⟩
        · exact h4 e heh
      · intro p hp
        rcases List.mem_cons.mp hp with hph | hph
        · rw [hph]
          rw [h2, hkeys2]
          exact List.mem_append_left _ (List.mem_append_right _
            (List.mem_singleton_self _))
        · exact h5 p hph

theorem bfsLoop_search (net : PetriNet) (fuel : Nat)
    (s : BFSState (List (Marking × Nat))) (hinv : SearchInv net s) :
    SearchInv net (bfsLoop listTable net.transitionArcs net.capacities
      net.weights fuel s) := by
  induction fuel generalizing s with
  | zero => exact hinv
  | succ fuel ih =>
    cases hqq : s.queue with
    | nil =>
      rw [bfsLoop_queue_nil listTable net.transitionArcs net.capacities
        net.weights (fuel + 1) hqq]
      exact hinv
    | cons e q2 =>
      obtain ⟨sid, sm, branches⟩ := e
      rw [bfsLoop_queue_cons listTable net.transitionArcs net.capacities
        net.weights fuel hqq]
      apply ih
      obtain ⟨hkeys, hnd, hinit, hqb, hrc, hkr⟩ := hinv
      have hsm_mem : sm ∈ tableKeys s.markings := by
        rw [hkeys, hqq]
        exact List.mem_append_right _ (List.mem_cons_self _ _)
      have hsm_reach : Reachable net sm := hkr sm hsm_mem
      have hbranches : branches = succs net sm := by
        have := hqb (sid, sm, branches) (by rw [hqq]; exact List.mem_cons_self _ _)
        exact this
      have hbr : ∀ p ∈ branches, Reachable net p.2 := by
        intro p hp
        rw [hbranches] at hp
        exact Reachable.step hsm_reach (by
          rw [show ((p.1, p.2) : Nat × Marking) = p from rfl]
          exact hp)
      obtain ⟨qNew, h1, h2, h3, h4, h5⟩ := exploreBranches_search net branches
        ⟨s.markings, q2, [], s.boundedness, s.liveness⟩ hnd hbr
      refine ⟨?_, h3, ?_, ?_, ?_, ?_⟩
      · show tableKeys (exploreBranches listTable net.transitionArcs
            net.capacities net.weights branches
            ⟨s.markings, q2, [], s.boundedness, s.liveness⟩).markings
          = rowMarks (s.rows ++ [(sid, sm, _)])
            ++ queueMarks (exploreBranches listTable net.transitionArcs
              net.capacities net.weights branches
              ⟨s.markings, q2, [], s.boundedness, s.liveness⟩).queue
        rw [h2, h1, hkeys, hqq]
        simp only [rowMarks, queueMarks, List.map_append, List.map_cons,
          List.map_nil]
        simp
      · show net.initial_marking ∈ tableKeys (exploreBranches listTable
          net.transitionArcs net.capacities net.weights branches
          ⟨s.markings, q2, [], s.boundedness, s.liveness⟩).markings
        rw [h2]
        exact List.mem_append_left _ hinit
      · show ∀ e ∈ (exploreBranches listTable net.transitionArcs net.capacities
            net.weights branches
            ⟨s.markings, q2, [], s.boundedness, s.liveness⟩).queue,
          e.2.2 = succs net e.2.1
        rw [h1]
        intro e2 he2
        rcases List.mem_append.mp he2 with hh | hh
        · exact hqb e2 (by rw [hqq]; exact List.mem_cons_of_mem _ hh)
        · exact (h4 e2 hh).1
      · show ∀ r ∈ s.rows ++ [(sid, sm, _)], ∀ p ∈ succs net r.2.1,
          p.2 ∈ tableKeys (exploreBranches listTable net.transitionArcs
            net.capacities net.weights branches
            ⟨s.markings, q2, [], s.boundedness, s.liveness⟩).markings
        intro r hr p hp
        rcases List.mem_append.mp hr with hh | hh
        · rw [h2]
          exact List.mem_append_left _ (hrc r hh p hp)
        · rw [List.mem_singleton] at hh
          rw [hh] at hp
          simp only at hp
          rw [← hbranches] at hp
          have := h5 p hp
          exact this
      · show ∀ m ∈ tableKeys (exploreBranches listTable net.transitionArcs
            net.capacities net.weights branches
            ⟨s.markings, q2, [], s.boundedness, s.liveness⟩).markings,
          Reachable net m
        rw [h2]
        intro m hm
        rcases List.mem_append.mp hm with hh | hh
        · exact hkr m hh
        · obtain ⟨e2, he2, heq⟩ := List.mem_map.mp hh
          exact heq ▸ (h4 e2 he2).2

theorem runAnalysis_SearchInv (net : PetriNet) (fuel : Nat) :
    SearchInv net (runAnalysis listTable [] fuel net) := by
  rw [runAnalysis_state_eq]
  apply bfsLoop_search
  refine ⟨?_, ?_, ?_, ?_, ?_, ?_⟩
  · simp [listTable, Markings.remember, tableKeys, rowMarks, queueMarks]
  · simp [listTable, Markings.remember, tableKeys]
  · simp [listTable, Markings.remember, tableKeys]
  · intro e he
    simp only [List.mem_singleton] at he
    rw [he]
    exact fire_transitions_fst_succs net net.initial_marking
      (Boundedness.new net) (Liveness.new net)
  · intro r hr
    simp at hr
  · intro m hm
    simp [listTable, Markings.remember, tableKeys] at hm
    rw [hm]
    exact Reachable.init

theorem analysis_complete (net : PetriNet) (fuel : Nat)
    (a : ReachabilityAnalysis) (h : reachability_analysis fuel net = some a) :
    (rowMarks a.rows).Nodup ∧
    (∀ M, Reachable net M → M ∈ rowMarks a.rows) ∧
    (∀ M ∈ rowMarks a.rows, Reachable net M) := by
  rw [reachability_analysis_eq] at h
  split at h
  · rename_i hq
    cases h
    obtain ⟨hkeys, hnd, hinit, hqb, hrc, hkr⟩ := runAnalysis_SearchInv net fuel
    have hkeq : tableKeys (runAnalysis listTable [] fuel net).markings
        = rowMarks (runAnalysis listTable [] fuel net).rows := by
      rw [hkeys, hq]
      simp [queueMarks]
    refine ⟨?_, ?_, ?_⟩
    · show (rowMarks (runAnalysis listTable [] fuel net).rows).Nodup
      rw [← hkeq]
      exact hnd
    · intro M hM
      show M ∈ rowMarks (runAnalysis listTable [] fuel net).rows
      rw [← hkeq]
      induction hM with
      | init => exact hinit
      | step hR hs ih =>
        rename_i m t m2
        have hmrow : m ∈ rowMarks (runAnalysis listTable [] fuel net).rows := by
          rw [← hkeq]; exact ih
        obtain ⟨r, hr, hreq⟩ := List.mem_map.mp hmrow
        exact hrc r hr (t, m2) (by rw [hreq]; exact hs)
    · intro M hM
      have hM2 : M ∈ rowMarks (runAnalysis listTable [] fuel net).rows := hM
      apply hkr
      rw [hkeq]
      exact hM2
  · cases h

theorem bfsLoop_rows_growth {σ : Type} (T : TableOps σ)
    (tios : List TransitionArcs) (caps : Nat → Nat) (ws : Arc → Nat)
    (k : Nat) (s : BFSState σ)
    (hne : (bfsLoop T tios caps ws k s).queue ≠ []) :
    (bfsLoop T tios caps ws k s).rows.length = s.rows.length + k := by
  induction k generalizing s with
  | zero => simp [bfsLoop]
  | succ k ih =>
    cases hqq : s.queue with
    | nil =>
      rw [bfsLoop_queue_nil T tios caps ws (k + 1) hqq] at hne
      exact absurd hqq hne
    | cons e q2 =>
      obtain ⟨sid, sm, branches⟩ := e
      rw [bfsLoop_queue_cons T tios caps ws k hqq] at hne ⊢
      rw [ih _ hne]
      simp only [List.length_append, List.length_cons, List.length_nil]
      omega

theorem searchInv_size_bound (net : PetriNet)
    {s : BFSState (List (Marking × Nat))} (hinv : SearchInv net s)
    (L : List Marking) (hL : ∀ M, Reachable net M → M ∈ L) :
    s.rows.length + s.queue.length ≤ L.length := by
  have hsub : tableKeys s.markings ⊆ L := fun m hm => hL m (hinv.keys_reach m hm)
  have hle : (tableKeys s.markings).length ≤ L.length :=
    (List.subperm_of_subset hinv.keys_nodup hsub).length_le
  have heq : (tableKeys s.markings).length = s.rows.length + s.queue.length := by
    rw [hinv.keys_eq, List.length_append]
    simp [rowMarks, queueMarks]
  omega

theorem runAnalysis_terminates (net : PetriNet) (L : List Marking)
    (hL : ∀ M, Reachable net M → M ∈ L) :
    (runAnalysis listTable [] L.length net).queue = [] := by
  by_cases hne : (runAnalysis listTable [] L.length net).queue = []
  · exact hne
  · exfalso
    have hinv := runAnalysis_SearchInv net L.length
    have hbound := searchInv_size_bound net hinv L hL
    have hrows : (runAnalysis listTable [] L.length net).rows.length
        = L.length := by
      rw [runAnalysis_state_eq] at hne ⊢
      rw [bfsLoop_rows_growth listTable net.transitionArcs net.capacities
        net.weights L.length _ hne]
      simp
    have hqpos : 0 < (runAnalysis listTable [] L.length net).queue.length := by
      cases hq2 : (runAnalysis listTable [] L.length net).queue with
      | nil => exact absurd hq2 hne
      | cons x xs => simp
    omega

/-- Claim C2: for a net whose reachable state space is finite (bounded by
a list L of markings), the analysis terminates and every reachable
marking appears exactly once among the rows - no duplicates, no
omissions; moreover every row marking is reachable. -/
theorem claim2_completeness (net : PetriNet) (L : List Marking)
    (hfin : ∀ M, Reachable net M → M ∈ L) :
    ∃ fuel a, reachability_analysis fuel net = some a ∧
      (∀ M, Reachable net M → (rowMarks a.rows).count M = 1) ∧
      (∀ M ∈ rowMarks a.rows, Reachable net M) := by
  have hq := runAnalysis_terminates net L hfin
  have hsome : reachability_analysis L.length net
      = some ⟨(runAnalysis listTable [] L.length net).rows,
          (runAnalysis listTable [] L.length net).boundedness,
          (runAnalysis listTable [] L.length net).liveness⟩ := by
    rw [reachability_analysis_eq, if_pos hq]
  obtain ⟨hnd, hcompl, hsound⟩ := analysis_complete net L.length _ hsome
  refine ⟨L.length, _, hsome, ?_, hsound⟩
  intro M hM
  exact List.count_eq_one_of_mem hnd (hcompl M hM)

theorem reachable_net0 (M : Marking) (h : Reachable net0 M) : M = ⟨[]⟩ := by
  induction h with
  | init => rfl
  | step hR hs ih =>
    rename_i m t m2
    exfalso
    have hsucc : succs net0 m = [] := rfl
    rw [hsucc] at hs
    cases hs

/-- Witness for claim C2 at a concrete net with a finite state space. -/
theorem claim2_completeness_witness :
    (∀ M, Reachable net0 M → M ∈ [(⟨[]⟩ : Marking)]) ∧
    (∃ fuel a, reachability_analysis fuel net0 = some a ∧
      (∀ M, Reachable net0 M → (rowMarks a.rows).count M = 1) ∧
      (∀ M ∈ rowMarks a.rows, Reachable net0 M)) :=
  ⟨fun M h => by rw [reachable_net0 M h]; exact List.mem_singleton_self _,
    claim2_completeness net0 [⟨[]⟩]
      fun M h => by rw [reachable_net0 M h]; exact List.mem_singleton_self _⟩

theorem bndLe_refl (b : Boundedness) : bndLe b b := ⟨rfl, fun _ => le_refl _⟩

theorem bndLe_trans {b1 b2 b3 : Boundedness} (h1 : bndLe b1 b2)
    (h2 : bndLe b2 b3) : bndLe b1 b3 :=
  ⟨h1.1.trans h2.1, fun p => (h1.2 p).trans (h2.2 p)⟩

theorem MDom_mono {b b2 : Boundedness} {m : Marking} (h : bndLe b b2)
    (hd : MDom b m) : MDom b2 m := fun p => (hd p).trans (h.2 p)

theorem getD_set_self {α : Type} (l : List α) (i : Nat) (x d : α)
    (h : i < l.length) : (l.set i x).getD i d = x := by
  rw [List.getD_eq_getElem _ _ (by simpa using h)]
  simp [List.getElem_set]

theorem getD_set_ne {α : Type} (l : List α) (i j : Nat) (x d : α)
    (h : i ≠ j) : (l.set i x).getD j d = l.getD j d := by
  by_cases hj : j < l.length
  · rw [List.getD_eq_getElem _ _ (by simpa using hj),
      List.getD_eq_getElem _ _ hj]
    simp [List.getElem_set, h]
  · rw [List.getD_eq_default _ _ (by simpa using hj),
      List.getD_eq_default _ _ (by simpa using hj)]

theorem Bound.cmp_bounded (a n : Nat) :
    Bound.cmp (Bound.Bounded a) (Bound.Bounded n) = compare a n := rfl

theorem Bound.max_bounded (a n : Nat) :
    ∃ k, Bound.max (Bound.Bounded a) (Bound.Bounded n) = Bound.Bounded k ∧
      a ≤ k ∧ n ≤ k := by
  unfold Bound.max
  rw [Bound.cmp_bounded]
  rcases Nat.lt_trichotomy a n with h | h | h
  · exact ⟨n, by rw [Nat.compare_eq_lt.mpr h], by omega, le_refl n⟩
  · subst h
    exact ⟨a, by rw [Nat.compare_eq_eq.mpr rfl], le_refl a, le_refl a⟩
  · exact ⟨a, by rw [Nat.compare_eq_gt.mpr h], le_refl a, by omega⟩

theorem update_length (b : Boundedness) (p : Nat) (bd : Bound) :
    (Boundedness.update b p bd).length = b.length := by
  simp [Boundedness.update]

/-- The entry read during an in-range update, in Bounded form. -/
theorem getD_allBounded {b : Boundedness} (hab : allBounded b) (p : Nat) :
    ∃ a, b.getD p (Bound.Bounded 0) = Bound.Bounded a ∧ bndVal b p = a := by
  by_cases hp : p < b.length
  · rw [List.getD_eq_getElem _ _ hp]
    obtain ⟨n, hn⟩ := hab (b.get ⟨p, hp⟩) (List.get_mem b p hp)
    refine ⟨n, ?_, ?_⟩
    · rw [← hn]
      rfl
    · unfold bndVal
      rw [List.getD_eq_getElem _ _ hp]
      rw [show b[p] = Bound.Bounded n from by rw [← hn]; rfl]
  · rw [List.getD_eq_default _ _ (Nat.le_of_not_lt hp)]
    refine ⟨0, rfl, ?_⟩
    unfold bndVal
    rw [List.getD_eq_default _ _ (Nat.le_of_not_lt hp)]

theorem update_allBounded {b : Boundedness} (hab : allBounded b) (p n : Nat) :
    allBounded (Boundedness.update b p (Bound.Bounded n)) := by
  intro x hx
  rcases List.mem_or_eq_of_mem_set hx with h | h
  · exact hab x h
  · obtain ⟨a, ha, _⟩ := getD_allBounded hab p
    rw [ha] at h
    obtain ⟨k, hk, _, _⟩ := Bound.max_bounded a n
    exact ⟨k, by rw [h, hk]⟩

theorem update_bndLe {b : Boundedness} (hab : allBounded b) (p n : Nat) :
    bndLe b (Boundedness.update b p (Bound.Bounded n)) := by
  refine ⟨(update_length b p (Bound.Bounded n)).symm, fun q => ?_⟩
  by_cases hp : p < b.length
  · by_cases hq : q = p
    · subst hq
      obtain ⟨a, ha, hval⟩ := getD_allBounded hab q
      obtain ⟨k, hk, hak, hnk⟩ := Bound.max_bounded a n
      have : bndVal (Boundedness.update b q (Bound.Bounded n)) q = k := by
        unfold bndVal Boundedness.update
        rw [ha, hk, getD_set_self _ _ _ _ hp]
      omega
    · have : bndVal (Boundedness.update b p (Bound.Bounded n)) q
          = bndVal b q := by
        unfold bndVal Boundedness.update
        rw [getD_set_ne _ _ _ _ _ (fun he => hq he.symm)]
      omega
  · have hset : Boundedness.update b p (Bound.Bounded n) = b := by
      unfold Boundedness.update
      exact List.set_eq_of_length_le (Nat.le_of_not_lt hp)
    rw [hset]

theorem update_bndVal_self {b : Boundedness} (hab : allBounded b) {p : Nat}
    (hp : p < b.length) (n : Nat) :
    n ≤ bndVal (Boundedness.update b p (Bound.Bounded n)) p := by
  obtain ⟨a, ha, _⟩ := getD_allBounded hab p
  obtain ⟨k, hk, hak, hnk⟩ := Bound.max_bounded a n
  have : bndVal (Boundedness.update b p (Bound.Bounded n)) p = k := by
    unfold bndVal Boundedness.update
    rw [ha, hk, getD_set_self _ _ _ _ hp]
  omega

theorem fireInputs_decrease {ws : Arc → Nat} {tid : Nat} {n : Nat}
    (ins : List Nat) (m m1 : Marking) (hm : m.WF) (hkb : keysBelow n m)
    (hins : ∀ p ∈ ins, p < n)
    (h : fireInputs ws tid ins m = some m1) :
    m1.WF ∧ keysBelow n m1 ∧ ∀ q, m1.get q ≤ m.get q := by
  induction ins generalizing m with
  | nil =>
    simp only [fireInputs, Option.some.injEq] at h
    subst h
    exact ⟨hm, hkb, fun q => le_refl _⟩
  | cons p rest ih =>
    simp only [fireInputs] at h
    split at h
    · rename_i hc
      have hm' := Marking.set_WF hm p (m.get p - ws (Arc.placeTransition p tid))
      have hkb' : keysBelow n (m.set p (m.get p - ws (Arc.placeTransition p tid))) := by
        intro e he
        rcases Marking.mem_set he with h2 | h2
        · exact hkb e h2
        · rw [h2.1]
          exact hins p (List.mem_cons_self _ _)
      obtain ⟨hwf1, hkb1, hdec⟩ := ih _ hm' hkb'
        (fun q hq => hins q (List.mem_cons_of_mem _ hq)) h
      refine ⟨hwf1, hkb1, fun q => ?_⟩
      refine (hdec q).trans ?_
      rw [Marking.get_set hm p _ q]
      by_cases hq : q = p
      · rw [if_pos hq, hq]
        omega
      · rw [if_neg hq]
    · exact Option.noConfusion h

theorem fireOutputs_bnd {caps : Nat → Nat} {ws : Arc → Nat} {tid : Nat}
    (outs : List Nat) (m : Marking) (b : Boundedness)
    (hm : m.WF) (hkb : keysBelow b.length m)
    (houts : ∀ p ∈ outs, p < b.length)
    (hdom : MDom b m) (hab : allBounded b) :
    allBounded (fireOutputs caps ws tid outs m b).2 ∧
    (fireOutputs caps ws tid outs m b).2.length = b.length ∧
    bndLe b (fireOutputs caps ws tid outs m b).2 ∧
    ∀ m2, (fireOutputs caps ws tid outs m b).1 = some m2 →
      m2.WF ∧ keysBelow b.length m2 ∧
        MDom (fireOutputs caps ws tid outs m b).2 m2 := by
  induction outs generalizing m b with
  | nil =>
    refine ⟨hab, rfl, bndLe_refl b, fun m2 h2 => ?_⟩
    simp only [fireOutputs, Option.some.injEq] at h2
    subst h2
    exact ⟨hm, hkb, hdom⟩
  | cons p rest ih =>
    have hp : p < b.length := houts p (List.mem_cons_self _ _)
    simp only [fireOutputs]
    split
    · rename_i hc
      set nt := m.get p + ws (Arc.transitionPlace tid p) with hnt
      have hm' := Marking.set_WF hm p nt
      have hb' := update_allBounded hab p nt
      have hble := update_bndLe hab p nt
      have hlen' : (Boundedness.update b p (Bound.Bounded nt)).length
          = b.length := update_length b p _
      have hkb' : keysBelow (Boundedness.update b p (Bound.Bounded nt)).length
          (m.set p nt) := by
        rw [hlen']
        intro e he
        rcases Marking.mem_set he with h2 | h2
        · exact hkb e h2
        · rw [h2.1]
          exact hp
      have hdom' : MDom (Boundedness.update b p (Bound.Bounded nt))
          (m.set p nt) := by
        intro q
        rw [Marking.get_set hm p nt q]
        by_cases hq : q = p
        · rw [if_pos hq, hq]
          exact update_bndVal_self hab hp nt
        · rw [if_neg hq]
          exact (hdom q).trans (hble.2 q)
      have houts' : ∀ q ∈ rest,
          q < (Boundedness.update b p (Bound.Bounded nt)).length := by
        rw [hlen']
        exact fun q hq => houts q (List.mem_cons_of_mem _ hq)
      obtain ⟨iab, ilen, ile, ires⟩ := ih (m.set p nt)
        (Boundedness.update b p (Bound.Bounded nt)) hm' hkb' houts' hdom' hb'
      refine ⟨iab, by rw [ilen, hlen'], bndLe_trans hble ile, ?_⟩
      intro m2 h2
      obtain ⟨w2, k2, d2⟩ := ires m2 h2
      exact ⟨w2, by rw [← hlen']; exact k2, d2⟩
    · exact ⟨hab, rfl, bndLe_refl b, fun m2 h2 => Option.noConfusion h2⟩

theorem fire_transitions_bnd (tios : List TransitionArcs) (m : Marking)
    (caps : Nat → Nat) (ws : Arc → Nat) (b : Boundedness) (l : Liveness)
    (hm : m.WF) (hkb : keysBelow b.length m) (hdom : MDom b m)
    (hab : allBounded b)
    (htios : ∀ io ∈ tios, (∀ p ∈ io.inputs, p < b.length) ∧
      (∀ p ∈ io.outputs, p < b.length)) :
    allBounded (fire_transitions tios m caps ws b l).2.1 ∧
    (fire_transitions tios m caps ws b l).2.1.length = b.length ∧
    bndLe b (fire_transitions tios m caps ws b l).2.1 ∧
    ∀ pr ∈ (fire_transitions tios m caps ws b l).1,
      pr.2.WF ∧ keysBelow b.length pr.2 ∧
        MDom (fire_transitions tios m caps ws b l).2.1 pr.2 := by
  induction tios generalizing b l with
  | nil =>
    exact ⟨hab, rfl, bndLe_refl b, fun pr hpr => absurd hpr (by simp [fire_transitions])⟩
  | cons io rest ih =>
    have htio := htios io (List.mem_cons_self _ _)
    have htrest : ∀ io2 ∈ rest, (∀ p ∈ io2.inputs, p < b.length) ∧
        ∀ p ∈ io2.outputs, p < b.length :=
      fun io2 h2 => htios io2 (List.mem_cons_of_mem _ h2)
    cases hin : fireInputs ws io.id io.inputs m with
    | none =>
      rw [fire_transitions_cons_none io rest m caps ws b l hin]
      exact ih b l hkb hdom hab htrest
    | some m1 =>
      obtain ⟨hw1, hkb1, hdec⟩ := fireInputs_decrease io.inputs m m1 hm hkb
        htio.1 hin
      have hdom1 : MDom b m1 := fun q => (hdec q).trans (hdom q)
      obtain ⟨oab, olen, ole, ores⟩ := fireOutputs_bnd io.outputs m1 b hw1
        hkb1 htio.2 hdom1 hab
      cases hout : fireOutputs caps ws io.id io.outputs m1 b with
      | mk o b1 =>
        rw [hout] at oab olen ole ores
        have hkb1' : keysBelow b1.length m := by rw [olen]; exact hkb
        have hdom1' : MDom b1 m := MDom_mono ole hdom
        have htrest1 : ∀ io2 ∈ rest, (∀ p ∈ io2.inputs, p < b1.length) ∧
            ∀ p ∈ io2.outputs, p < b1.length := by
          rw [olen]
          exact htrest
        cases o with
        | none =>
          rw [fire_transitions_cons_outfail io rest m caps ws b l m1 b1 hin hout]
          obtain ⟨iab, ilen, ile, ires⟩ := ih b1 l hkb1' hdom1' oab htrest1
          refine ⟨iab, by rw [ilen, olen], bndLe_trans ole ile, ?_⟩
          intro pr hpr
          obtain ⟨w2, k2, d2⟩ := ires pr hpr
          exact ⟨w2, by rw [← olen]; exact k2, d2⟩
        | some m2 =>
          rw [fire_transitions_cons_success io rest m caps ws b l m1 m2 b1
            hin hout]
          obtain ⟨w2, k2, d2⟩ := ores m2 rfl
          obtain ⟨iab, ilen, ile, ires⟩ := ih b1
            (Liveness.update l io.id Live.L1) hkb1' hdom1' oab htrest1
          refine ⟨iab, by rw [ilen, olen], bndLe_trans ole ile, ?_⟩
          intro pr hpr
          rcases List.mem_cons.mp hpr with hh | hh
      -- head
          · rw [hh]
            exact ⟨w2, k2, MDom_mono ile d2⟩
          · obtain ⟨w3, k3, d3⟩ := ires pr hh
            exact ⟨w3, by rw [← olen]; exact k3, d3⟩

theorem transitionArcs_places_bound {net : PetriNet} (hwf : WFNet net) :
    ∀ io ∈ net.transitionArcs, (∀ p ∈ io.inputs, p < net.places.length) ∧
      ∀ p ∈ io.outputs, p < net.places.length := by
  intro io hio
  constructor
  · intro p hp
    rw [transitionArcs_inputs hio] at hp
    obtain ⟨a, ha, hfa⟩ := List.mem_filterMap.mp hp
    have := inputArcSel_eq_some hfa
    have h2 := hwf.arc_places a ha
    rw [this] at h2
    exact h2
  · intro p hp
    rw [transitionArcs_outputs hio] at hp
    obtain ⟨a, ha, hfa⟩ := List.mem_filterMap.mp hp
    have := outputArcSel_eq_some hfa
    have h2 := hwf.arc_places a ha
    rw [this] at h2
    exact h2

theorem exploreBranches_bnd (net : PetriNet) (hwf : WFNet net)
    (br : List (Nat × Marking)) (s : ExploreState (List (Marking × Nat)))
    (hab : allBounded s.boundedness)
    (hlen : s.boundedness.length = net.places.length)
    (hbr : ∀ pr ∈ br, pr.2.WF ∧ keysBelow net.places.length pr.2 ∧
      MDom s.boundedness pr.2)
    (hq : ∀ e ∈ s.queue, (e.2.1.WF ∧ keysBelow net.places.length e.2.1 ∧
      MDom s.boundedness e.2.1) ∧ ∀ pr ∈ e.2.2, pr.2.WF ∧
      keysBelow net.places.length pr.2 ∧ MDom s.boundedness pr.2) :
    allBounded (exploreBranches listTable net.transitionArcs net.capacities
      net.weights br s).boundedness ∧
    (exploreBranches listTable net.transitionArcs net.capacities
      net.weights br s).boundedness.length = net.places.length ∧
    bndLe s.boundedness (exploreBranches listTable net.transitionArcs
      net.capacities net.weights br s).boundedness ∧
    ∀ e ∈ (exploreBranches listTable net.transitionArcs net.capacities
        net.weights br s).queue,
      (e.2.1.WF ∧ keysBelow net.places.length e.2.1 ∧
        MDom (exploreBranches listTable net.transitionArcs net.capacities
          net.weights br s).boundedness e.2.1) ∧
      ∀ pr ∈ e.2.2, pr.2.WF ∧ keysBelow net.places.length pr.2 ∧
        MDom (exploreBranches listTable net.transitionArcs net.capacities
          net.weights br s).boundedness pr.2 := by
  induction br generalizing s with
  | nil => exact ⟨hab, hlen, bndLe_refl _, hq⟩
  | cons pb rest ih =>
    obtain ⟨tid, rm⟩ := pb
    have hbrrest : ∀ pr ∈ rest, pr.2.WF ∧ keysBelow net.places.length pr.2 ∧
        MDom s.boundedness pr.2 :=
      fun pr hpr => hbr pr (List.mem_cons_of_mem _ hpr)
    cases hlk : listTable.look_up s.markings rm with
    | some eid =>
      rw [exploreBranches_found listTable net.transitionArcs net.capacities
        net.weights tid rm rest s eid hlk]
      exact ih { s with conts := s.conts ++ [(tid, eid)] } hab hlen hbrrest hq
    | none =>
      rw [exploreBranches_new listTable net.transitionArcs net.capacities
        net.weights tid rm rest s hlk]
      obtain ⟨hwrm, hkbrm, hdomrm⟩ := hbr (tid, rm) (List.mem_cons_self _ _)
      have htios := transitionArcs_places_bound hwf
      have htios' : ∀ io ∈ net.transitionArcs,
          (∀ p ∈ io.inputs, p < s.boundedness.length) ∧
          ∀ p ∈ io.outputs, p < s.boundedness.length := by
        rw [hlen]
        exact htios
      obtain ⟨fab, flen, fle, fres⟩ := fire_transitions_bnd net.transitionArcs
        rm net.capacities net.weights s.boundedness s.liveness hwrm
        (by rw [hlen]; exact hkbrm) hdomrm hab htios'
      have hrest2 : ∀ pr ∈ rest, pr.2.WF ∧ keysBelow net.places.length pr.2 ∧
          MDom (fire_transitions net.transitionArcs rm net.capacities
            net.weights s.boundedness s.liveness).2.1 pr.2 := by
        intro pr hpr
        obtain ⟨w3, k3, d3⟩ := hbrrest pr hpr
        exact ⟨w3, k3, MDom_mono fle d3⟩
      have hq2 : ∀ e ∈ s.queue ++ [((listTable.remember s.markings rm).1, rm,
          (fire_transitions net.transitionArcs rm net.capacities net.weights
            s.boundedness s.liveness).1)],
          (e.2.1.WF ∧ keysBelow net.places.length e.2.1 ∧
            MDom (fire_transitions net.transitionArcs rm net.capacities
              net.weights s.boundedness s.liveness).2.1 e.2.1) ∧
          ∀ pr ∈ e.2.2, pr.2.WF ∧ keysBelow net.places.length pr.2 ∧
            MDom (fire_transitions net.transitionArcs rm net.capacities
              net.weights s.boundedness s.liveness).2.1 pr.2 := by
        intro e he
        rcases List.mem_append.mp he with hh | hh
        · obtain ⟨⟨w3, k3, d3⟩, hbrs⟩ := hq e hh
          refine ⟨⟨w3, k3, MDom_mono fle d3⟩, ?_⟩
          intro pr hpr
          obtain ⟨w4, k4, d4⟩ := hbrs pr hpr
          exact ⟨w4, k4, MDom_mono fle d4⟩
        · rw [List.mem_singleton] at hh
          rw [hh]
          refine ⟨⟨hwrm, hkbrm, MDom_mono fle hdomrm⟩, ?_⟩
          intro pr hpr
          obtain ⟨w3, k3, d3⟩ := fres pr hpr
          exact ⟨w3, by rw [← hlen]; exact k3, d3⟩
      obtain ⟨iab, ilen, ile, ires⟩ := ih
        { markings := (listTable.remember s.markings rm).2
          queue := s.queue ++ [((listTable.remember s.markings rm).1, rm,
            (fire_transitions net.transitionArcs rm net.capacities net.weights
              s.boundedness s.liveness).1)]
          conts := s.conts ++ [(tid, (listTable.remember s.markings rm).1)]
          boundedness := (fire_transitions net.transitionArcs rm net.capacities
            net.weights s.boundedness s.liveness).2.1
          liveness := (fire_transitions net.transitionArcs rm net.capacities
            net.weights s.boundedness s.liveness).2.2 }
        fab (by
          show (fire_transitions net.transitionArcs rm net.capacities
            net.weights s.boundedness s.liveness).2.1.length = net.places.length
          rw [flen, hlen]) hrest2 hq2
      exact ⟨iab, ilen, bndLe_trans fle ile, ires⟩

theorem bfsLoop_bnd (net : PetriNet) (hwf : WFNet net) (fuel : Nat)
    (s : BFSState (List (Marking × Nat))) (hinv : BndInv net s) :
    BndInv net (bfsLoop listTable net.transitionArcs net.capacities
      net.weights fuel s) := by
  induction fuel generalizing s with
  | zero => exact hinv
  | succ fuel ih =>
    cases hqq : s.queue with
    | nil =>
      rw [bfsLoop_queue_nil listTable net.transitionArcs net.capacities
        net.weights (fuel + 1) hqq]
      exact hinv
    | cons e q2 =>
      obtain ⟨sid, sm, branches⟩ := e
      rw [bfsLoop_queue_cons listTable net.transitionArcs net.capacities
        net.weights fuel hqq]
      apply ih
      obtain ⟨hab, hlen, hqm, hqb, hrd, hid⟩ := hinv
      have hhead := hqm (sid, sm, branches) (by rw [hqq]; exact List.mem_cons_self _ _)
      have hheadbr := hqb (sid, sm, branches)
        (by rw [hqq]; exact List.mem_cons_self _ _)
      have hq2 : ∀ e2 ∈ q2, (e2.2.1.WF ∧ keysBelow net.places.length e2.2.1 ∧
          MDom s.boundedness e2.2.1) ∧ ∀ pr ∈ e2.2.2, pr.2.WF ∧
          keysBelow net.places.length pr.2 ∧ MDom s.boundedness pr.2 := by
        intro e2 he2
        exact ⟨hqm e2 (by rw [hqq]; exact List.mem_cons_of_mem _ he2),
          hqb e2 (by rw [hqq]; exact List.mem_cons_of_mem _ he2)⟩
      obtain ⟨eab, elen, ele, eq⟩ := exploreBranches_bnd net hwf branches
        ⟨s.markings, q2, [], s.boundedness, s.liveness⟩ hab hlen hheadbr hq2
      refine ⟨eab, elen, ?_, ?_, ?_, ?_⟩
      · intro e2 he2
        exact (eq e2 he2).1
      · intro e2 he2
        exact (eq e2 he2).2
      · intro r hr
        rcases List.mem_append.mp hr with hh | hh
        · exact MDom_mono ele (hrd r hh)
        · rw [List.mem_singleton] at hh
          rw [hh]
          exact MDom_mono ele hhead.2.2
      · exact MDom_mono ele hid

theorem foldl_set_length (es : List (Nat × Nat)) (v : Boundedness) :
    (es.foldl (fun v e => v.set e.1 (Bound.Bounded e.2)) v).length = v.length := by
  induction es generalizing v with
  | nil => rfl
  | cons e rest ih =>
    simp only [List.foldl_cons]
    rw [ih]
    simp

theorem foldl_set_allBounded (es : List (Nat × Nat)) (v : Boundedness)
    (hv : allBounded v) :
    allBounded (es.foldl (fun v e => v.set e.1 (Bound.Bounded e.2)) v) := by
  induction es generalizing v with
  | nil => exact hv
  | cons e rest ih =>
    simp only [List.foldl_cons]
    apply ih
    intro x hx
    rcases List.mem_or_eq_of_mem_set hx with h | h
    · exact hv x h
    · exact ⟨e.2, h⟩

theorem foldl_set_bndVal (es : List (Nat × Nat)) (v : Boundedness) (p : Nat)
    (hnd : es.Pairwise (fun a b => a.1 < b.1))
    (hin : ∀ e ∈ es, e.1 < v.length) :
    bndVal (es.foldl (fun v e => v.set e.1 (Bound.Bounded e.2)) v) p
      = match es.find? (fun e => e.1 == p) with
        | some e => e.2
        | none => bndVal v p := by
  induction es generalizing v with
  | nil => rfl
  | cons e rest ih =>
    simp only [List.foldl_cons]
    have htail := (List.pairwise_cons.mp hnd).2
    have hintail : ∀ f ∈ rest, f.1 < (v.set e.1 (Bound.Bounded e.2)).length := by
      intro f hf
      rw [List.length_set]
      exact hin f (List.mem_cons_of_mem _ hf)
    cases hbe : (e.1 == p) with
    | true =>
      have hp : e.1 = p := beq_iff_eq.mp hbe
      rw [List.find?_cons]
      simp only [hbe]
      have hfind : rest.find? (fun f => f.1 == p) = none := by
        rw [List.find?_eq_none]
        intro f hf
        have hlt : e.1 < f.1 := (List.pairwise_cons.mp hnd).1 f hf
        simp only [beq_iff_eq]
        omega
      rw [ih _ htail hintail, hfind]
      unfold bndVal
      rw [show v.set e.1 (Bound.Bounded e.2) = v.set p (Bound.Bounded e.2)
        from by rw [hp]]
      rw [getD_set_self v p _ _ (hp ▸ hin e (List.mem_cons_self _ _))]
    | false =>
      have hp : e.1 ≠ p := by simpa using hbe
      rw [List.find?_cons]
      simp only [hbe]
      rw [ih _ htail hintail]
      cases hf : rest.find? (fun f => f.1 == p) with
      | some f => rfl
      | none =>
        unfold bndVal
        rw [getD_set_ne v e.1 p _ _ hp]

theorem lookupTokens_eq_find (l : List (Nat × Nat)) (p : Nat) :
    lookupTokens l p = match l.find? (fun e => e.1 == p) with
      | some e => e.2
      | none => 0 := by
  induction l with
  | nil => rfl
  | cons e rest ih =>
    simp only [lookupTokens]
    cases hbe : (e.1 == p) with
    | true =>
      have hp : e.1 = p := beq_iff_eq.mp hbe
      rw [if_pos hp, List.find?_cons]
      simp only [hbe]
    | false =>
      have hp : e.1 ≠ p := by simpa using hbe
      rw [if_neg hp, List.find?_cons]
      simp only [hbe]
      exact ih

theorem bndVal_replicate (n p : Nat) :
    bndVal (List.replicate n (Bound.Bounded 0)) p = 0 := by
  unfold bndVal
  by_cases h : p < n
  · rw [List.getD_eq_getElem _ _ (by simpa using h)]
    simp
  · rw [List.getD_eq_default _ _ (by simpa using h)]

theorem boundedness_new_facts (net : PetriNet) (hwf : WFNet net) :
    (Boundedness.new net).length = net.places.length ∧
    allBounded (Boundedness.new net) ∧
    ∀ p, bndVal (Boundedness.new net) p = net.initial_marking.get p := by
  unfold Boundedness.new
  refine ⟨?_, ?_, ?_⟩
  · rw [foldl_set_length]
    simp
  · apply foldl_set_allBounded
    intro x hx
    exact ⟨0, List.eq_of_mem_replicate hx⟩
  · intro p
    rw [foldl_set_bndVal _ _ _ hwf.init_wf.1
      (by intro e he; rw [List.length_replicate]; exact hwf.init_places e he)]
    rw [show net.initial_marking.get p
      = match net.initial_marking.entries.find? (fun e => e.1 == p) with
        | some e => e.2
        | none => 0 from lookupTokens_eq_find _ p]
    cases hf : net.initial_marking.entries.find? (fun e => e.1 == p) with
    | some f => rfl
    | none => exact bndVal_replicate _ p

theorem runAnalysis_BndInv (net : PetriNet) (hwf : WFNet net) (fuel : Nat) :
    BndInv net (runAnalysis listTable [] fuel net) := by
  rw [runAnalysis_state_eq]
  apply bfsLoop_bnd net hwf
  obtain ⟨hnlen, hnab, hnval⟩ := boundedness_new_facts net hwf
  have hdominit : MDom (Boundedness.new net) net.initial_marking := by
    intro p
    rw [hnval p]
  have htios' : ∀ io ∈ net.transitionArcs,
      (∀ p ∈ io.inputs, p < (Boundedness.new net).length) ∧
      ∀ p ∈ io.outputs, p < (Boundedness.new net).length := by
    rw [hnlen]
    exact transitionArcs_places_bound hwf
  obtain ⟨fab, flen, fle, fres⟩ := fire_transitions_bnd net.transitionArcs
    net.initial_marking net.capacities net.weights (Boundedness.new net)
    (Liveness.new net) hwf.init_wf (by rw [hnlen]; exact hwf.init_places)
    hdominit hnab htios'
  refine ⟨fab, by rw [flen, hnlen], ?_, ?_, ?_, ?_⟩
  · intro e he
    simp only [List.mem_singleton] at he
    rw [he]
    exact ⟨hwf.init_wf, hwf.init_places, MDom_mono fle hdominit⟩
  · intro e he
    simp only [List.mem_singleton] at he
    rw [he]
    intro pr hpr
    obtain ⟨w3, k3, d3⟩ := fres pr hpr
    exact ⟨w3, by rw [← hnlen]; exact k3, d3⟩
  · intro r hr
    simp at hr
  · exact MDom_mono fle hdominit

/-- Claim C4, amended: after reachability_analysis, every Boundedness
entry is Bounded(n) where n is AT LEAST the maximum number of tokens the
place holds across the initial marking and every marking recorded in the
rows. The claimed equality fails (see the counterexample): output-phase
updates of firing attempts that later abort on a subsequent output place
are also recorded, so n can exceed every reachable token count. -/
theorem claim4_boundedness_amended (net : PetriNet) (fuel : Nat)
    (a : ReachabilityAnalysis) (hwf : WFNet net)
    (h : reachability_analysis fuel net = some a) :
    ∀ p, ∃ n, a.boundedness.getD p (Bound.Bounded 0) = Bound.Bounded n ∧
      net.initial_marking.get p ≤ n ∧
      ∀ r ∈ a.rows, r.2.1.get p ≤ n := by
  rw [reachability_analysis_eq] at h
  split at h
  · cases h
    obtain ⟨hab, hlen, hqm, hqb, hrd, hid⟩ := runAnalysis_BndInv net hwf fuel
    intro p
    obtain ⟨n, hg, hval⟩ := getD_allBounded hab p
    refine ⟨n, hg, ?_, ?_⟩
    · rw [← hval]
      exact hid p
    · intro r hr
      rw [← hval]
      exact hrd r hr p
  · cases h

/-- Counterexample ending claim C4 as stated: on netC4 the completed
analysis records Bounded(1) for place 0 although the maximum token count
of place 0 over the initial marking and all rows is 0. -/
theorem claim4_counterexample :
    ((reachability_analysis 1 netC4).map fun a =>
      decide (a.boundedness.getD 0 (Bound.Bounded 0)
        = Bound.Bounded (maxObservedTokens netC4 a 0)))
      = some false := by decide

/-- Witness for the amended claim C4 at the counterexample net itself. -/
theorem claim4_boundedness_amended_witness :
    (WFNet netC4 ∧ reachability_analysis 1 netC4 = some aW4) ∧
    ∀ p, ∃ n, aW4.boundedness.getD p (Bound.Bounded 0) = Bound.Bounded n ∧
      netC4.initial_marking.get p ≤ n ∧
      ∀ r ∈ aW4.rows, r.2.1.get p ≤ n :=
  ⟨⟨⟨by decide, by decide, by decide⟩, by decide⟩,
    claim4_boundedness_amended netC4 1 aW4 ⟨by decide, by decide, by decide⟩
      (by decide)⟩

theorem look_up_cons (a : Marking × Nat) (l : List (Marking × Nat))
    (m' : Marking) :
    Markings.look_up (a :: l) m' =
      if a.1 = m' then some a.2 else Markings.look_up l m' := by
  unfold Markings.look_up
  rw [List.find?_cons]
  cases hbe : (a.1 == m') with
  | true =>
    simp only [hbe]
    rw [if_pos (beq_iff_eq.mp hbe)]
    rfl
  | false =>
    simp only [hbe]
    rw [if_neg (by simpa using hbe)]

theorem look_up_append_some (l : List (Marking × Nat)) (e : Marking × Nat)
    (m' : Marking) (v : Nat) (h : Markings.look_up l m' = some v) :
    Markings.look_up (l ++ [e]) m' = some v := by
  induction l with
  | nil => cases h
  | cons a rest ih =>
    rw [look_up_cons] at h
    rw [List.cons_append, look_up_cons]
    by_cases hp : a.1 = m'
    · rw [if_pos hp] at h ⊢
      exact h
    · rw [if_neg hp] at h ⊢
      exact ih h

theorem look_up_append_none (l : List (Marking × Nat)) (e : Marking × Nat)
    (m' : Marking) (h : Markings.look_up l m' = none) :
    Markings.look_up (l ++ [e]) m' =
      if e.1 = m' then some e.2 else none := by
  induction l with
  | nil =>
    rw [List.nil_append, look_up_cons]
    rfl
  | cons a rest ih =>
    rw [look_up_cons] at h
    rw [List.cons_append, look_up_cons]
    by_cases hp : a.1 = m'
    · rw [if_pos hp] at h
      cases h
    · rw [if_neg hp] at h ⊢
      exact ih h

theorem hashSize_set_cons (t : List (List (Marking × Nat))) (i : Nat)
    (e : Marking × Nat) (hi : i < t.length) :
    hashSize (t.set i (e :: t.getD i [])) = hashSize t + 1 := by
  induction t generalizing i with
  | nil => simp at hi
  | cons b rest ih =>
    cases i with
    | zero =>
      simp only [List.set_cons_zero, List.getD_cons_zero, hashSize,
        List.map_cons, List.sum_cons, List.length_cons]
      omega
    | succ j =>
      have hj : j < rest.length := by simpa using hi
      simp only [List.set_cons_succ, List.getD_cons_succ, hashSize,
        List.map_cons, List.sum_cons]
      have hr := ih j hj
      unfold hashSize at hr
      omega

theorem hashLook_remember_self (h : Marking → Nat) (B : Nat) (hB : 0 < B)
    (t : List (List (Marking × Nat))) (htl : t.length = B) (m : Marking) :
    hashLook h B (hashRemember h B t m).2 m = some (hashSize t) := by
  unfold hashRemember hashLook
  rw [getD_set_self _ _ _ _ (by rw [htl]; exact Nat.mod_lt _ hB)]
  rw [List.find?_cons]
  simp

theorem hashLook_remember_ne (h : Marking → Nat) (B : Nat) (hB : 0 < B)
    (t : List (List (Marking × Nat))) (htl : t.length = B)
    (m m' : Marking) (hne : m ≠ m') :
    hashLook h B (hashRemember h B t m).2 m' = hashLook h B t m' := by
  unfold hashRemember hashLook
  by_cases hidx : h m % B = h m' % B
  · rw [← hidx, getD_set_self _ _ _ _ (by rw [htl]; exact Nat.mod_lt _ hB)]
    rw [List.find?_cons]
    have hfalse : ((m, hashSize t).1 == m') = false := by
      simpa using hne
    simp [hfalse]
  · rw [getD_set_ne _ _ _ _ _ hidx]

theorem TRel_remember (h : Marking → Nat) (B : Nat) (hB : 0 < B)
    (t : List (List (Marking × Nat))) (l : List (Marking × Nat)) (m : Marking)
    (hR : TRel h B t l) (hnone : Markings.look_up l m = none) :
    (hashRemember h B t m).1 = (Markings.remember l m).1 ∧
    TRel h B (hashRemember h B t m).2 (Markings.remember l m).2 := by
  obtain ⟨htl, hsz, hlk⟩ := hR
  refine ⟨hsz, ?_, ?_, ?_⟩
  · show (t.set (h m % B) _).length = B
    rw [List.length_set, htl]
  · show hashSize (t.set (h m % B) ((m, hashSize t) :: t.getD (h m % B) []))
      = (l ++ [(m, l.length)]).length
    rw [hashSize_set_cons _ _ _ (by rw [htl]; exact Nat.mod_lt _ hB)]
    simp [hsz]
  · intro m'
    by_cases hm : m = m'
    · subst hm
      rw [hashLook_remember_self h B hB t htl m]
      show _ = Markings.look_up (l ++ [(m, l.length)]) m
      rw [look_up_append_none _ _ _ hnone, if_pos rfl, hsz]
    · rw [hashLook_remember_ne h B hB t htl m m' hm, hlk m']
      show Markings.look_up l m' = Markings.look_up (l ++ [(m, l.length)]) m'
      cases hl' : Markings.look_up l m' with
      | some v => rw [look_up_append_some l _ m' v hl']
      | none =>
        rw [look_up_append_none l _ m' hl', if_neg (by simpa using hm)]

theorem TRel_empty (h : Marking → Nat) (B : Nat) :
    TRel h B (List.replicate B []) [] := by
  refine ⟨List.length_replicate _ _, ?_, ?_⟩
  · show hashSize (List.replicate B []) = 0
    unfold hashSize
    rw [List.map_replicate]
    simp
  · intro m
    have hbkt : (List.replicate B ([] : List (Marking × Nat))).getD
        (h m % B) [] = [] := by
      by_cases hBm : h m % B < B
      · rw [List.getD_eq_getElem _ _ (by simpa using hBm)]
        simp
      · rw [List.getD_eq_default _ _ (by simpa using hBm)]
    unfold hashLook Markings.look_up
    rw [hbkt]

theorem exploreBranches_sim (h : Marking → Nat) (B : Nat) (hB : 0 < B)
    (tios : List TransitionArcs) (caps : Nat → Nat) (ws : Arc → Nat)
    (bs : List (Nat × Marking))
    (t : ExploreState (List (List (Marking × Nat))))
    (l : ExploreState (List (Marking × Nat)))
    (hR : TRel h B t.markings l.markings)
    (hq : t.queue = l.queue) (hc : t.conts = l.conts)
    (hb : t.boundedness = l.boundedness) (hl : t.liveness = l.liveness) :
    TRel h B (exploreBranches (hashTable h B) tios caps ws bs t).markings
      (exploreBranches listTable tios caps ws bs l).markings ∧
    (exploreBranches (hashTable h B) tios caps ws bs t).queue
      = (exploreBranches listTable tios caps ws bs l).queue ∧
    (exploreBranches (hashTable h B) tios caps ws bs t).conts
      = (exploreBranches listTable tios caps ws bs l).conts ∧
    (exploreBranches (hashTable h B) tios caps ws bs t).boundedness
      = (exploreBranches listTable tios caps ws bs l).boundedness ∧
    (exploreBranches (hashTable h B) tios caps ws bs t).liveness
      = (exploreBranches listTable tios caps ws bs l).liveness := by
  induction bs generalizing t l with
  | nil => exact ⟨hR, hq, hc, hb, hl⟩
  | cons br rest ih =>
    obtain ⟨tid, rm⟩ := br
    have hlkeq : hashLook h B t.markings rm = Markings.look_up l.markings rm :=
      hR.2.2 rm
    cases hcase : Markings.look_up l.markings rm with
    | some eid =>
      rw [exploreBranches_found (hashTable h B) tios caps ws tid rm rest t eid
        (by show hashLook h B t.markings rm = some eid; rw [hlkeq, hcase])]
      rw [exploreBranches_found listTable tios caps ws tid rm rest l eid hcase]
      apply ih
      · exact hR
      · exact hq
      · show t.conts ++ [(tid, eid)] = l.conts ++ [(tid, eid)]
        rw [hc]
      · exact hb
      · exact hl
    | none =>
      rw [exploreBranches_new (hashTable h B) tios caps ws tid rm rest t
        (by show hashLook h B t.markings rm = none; rw [hlkeq, hcase])]
      rw [exploreBranches_new listTable tios caps ws tid rm rest l hcase]
      obtain ⟨hid, hR'⟩ := TRel_remember h B hB t.markings l.markings rm
        hR hcase
      apply ih
      · exact hR'
      · show t.queue ++ [(((hashTable h B).remember t.markings rm).1, rm,
            (fire_transitions tios rm caps ws t.boundedness t.liveness).1)]
          = l.queue ++ [((listTable.remember l.markings rm).1, rm,
            (fire_transitions tios rm caps ws l.boundedness l.liveness).1)]
        rw [hq, hb, hl,
          show ((hashTable h B).remember t.markings rm).1
            = (listTable.remember l.markings rm).1 from hid]
      · show t.conts ++ [(tid, ((hashTable h B).remember t.markings rm).1)]
          = l.conts ++ [(tid, (listTable.remember l.markings rm).1)]
        rw [hc,
          show ((hashTable h B).remember t.markings rm).1
            = (listTable.remember l.markings rm).1 from hid]
      · show (fire_transitions tios rm caps ws t.boundedness t.liveness).2.1
          = (fire_transitions tios rm caps ws l.boundedness l.liveness).2.1
        rw [hb, hl]
      · show (fire_transitions tios rm caps ws t.boundedness t.liveness).2.2
          = (fire_transitions tios rm caps ws l.boundedness l.liveness).2.2
        rw [hb, hl]

theorem bfsLoop_sim (h : Marking → Nat) (B : Nat) (hB : 0 < B)
    (tios : List TransitionArcs) (caps : Nat → Nat) (ws : Arc → Nat)
    (fuel : Nat)
    (t : BFSState (List (List (Marking × Nat))))
    (l : BFSState (List (Marking × Nat)))
    (hR : TRel h B t.markings l.markings)
    (hq : t.queue = l.queue) (hrows : t.rows = l.rows)
    (hb : t.boundedness = l.boundedness) (hl : t.liveness = l.liveness) :
    TRel h B (bfsLoop (hashTable h B) tios caps ws fuel t).markings
      (bfsLoop listTable tios caps ws fuel l).markings ∧
    (bfsLoop (hashTable h B) tios caps ws fuel t).queue
      = (bfsLoop listTable tios caps ws fuel l).queue ∧
    (bfsLoop (hashTable h B) tios caps ws fuel t).rows
      = (bfsLoop listTable tios caps ws fuel l).rows ∧
    (bfsLoop (hashTable h B) tios caps ws fuel t).boundedness
      = (bfsLoop listTable tios caps ws fuel l).boundedness ∧
    (bfsLoop (hashTable h B) tios caps ws fuel t).liveness
      = (bfsLoop listTable tios caps ws fuel l).liveness := by
  induction fuel generalizing t l with
  | zero => exact ⟨hR, hq, hrows, hb, hl⟩
  | succ n ih =>
    cases hqq : l.queue with
    | nil =>
      rw [bfsLoop_queue_nil _ _ _ _ _ (by rw [hq, hqq]),
        bfsLoop_queue_nil _ _ _ _ _ hqq]
      exact ⟨hR, hq, hrows, hb, hl⟩
    | cons entry q2 =>
      obtain ⟨sid, sm, branches⟩ := entry
      rw [bfsLoop_queue_cons _ _ _ _ n (by rw [hq, hqq]),
        bfsLoop_queue_cons _ _ _ _ n hqq]
      obtain ⟨eR, eq2, ec, eb, el⟩ := exploreBranches_sim h B hB tios caps ws
        branches ⟨t.markings, q2, [], t.boundedness, t.liveness⟩
        ⟨l.markings, q2, [], l.boundedness, l.liveness⟩ hR rfl rfl hb hl
      apply ih
      · exact eR
      · exact eq2
      · show t.rows ++ _ = l.rows ++ _
        rw [hrows, ec]
      · exact eb
      · exact el

theorem runAnalysis_sim (h : Marking → Nat) (B : Nat) (hB : 0 < B)
    (fuel : Nat) (net : PetriNet) :
    (runAnalysis (hashTable h B) (List.replicate B []) fuel net).queue
      = (runAnalysis listTable [] fuel net).queue ∧
    (runAnalysis (hashTable h B) (List.replicate B []) fuel net).rows
      = (runAnalysis listTable [] fuel net).rows ∧
    (runAnalysis (hashTable h B) (List.replicate B []) fuel net).boundedness
      = (runAnalysis listTable [] fuel net).boundedness ∧
    (runAnalysis (hashTable h B) (List.replicate B []) fuel net).liveness
      = (runAnalysis listTable [] fuel net).liveness := by
  rw [runAnalysis_state_eq, runAnalysis_state_eq]
  obtain ⟨hid0, hR0⟩ := TRel_remember h B hB (List.replicate B []) []
    net.initial_marking (TRel_empty h B) rfl
  obtain ⟨rR, rq, rrows, rb, rl⟩ := bfsLoop_sim h B hB net.transitionArcs
    net.capacities net.weights fuel
    ⟨((hashTable h B).remember (List.replicate B []) net.initial_marking).2,
      [(((hashTable h B).remember (List.replicate B [])
          net.initial_marking).1, net.initial_marking,
        (fire_transitions net.transitionArcs net.initial_marking
          net.capacities net.weights (Boundedness.new net)
          (Liveness.new net)).1)], [],
      (fire_transitions net.transitionArcs net.initial_marking
        net.capacities net.weights (Boundedness.new net)
        (Liveness.new net)).2.1,
      (fire_transitions net.transitionArcs net.initial_marking
        net.capacities net.weights (Boundedness.new net)
        (Liveness.new net)).2.2⟩
    ⟨(listTable.remember [] net.initial_marking).2,
      [((listTable.remember [] net.initial_marking).1, net.initial_marking,
        (fire_transitions net.transitionArcs net.initial_marking
          net.capacities net.weights (Boundedness.new net)
          (Liveness.new net)).1)], [],
      (fire_transitions net.transitionArcs net.initial_marking
        net.capacities net.weights (Boundedness.new net)
        (Liveness.new net)).2.1,
      (fire_transitions net.transitionArcs net.initial_marking
        net.capacities net.weights (Boundedness.new net)
        (Liveness.new net)).2.2⟩
    hR0
    (by rw [show ((hashTable h B).remember (List.replicate B [])
      net.initial_marking).1 = (listTable.remember []
      net.initial_marking).1 from hid0])
    rfl rfl rfl
  exact ⟨rq, rrows, rb, rl⟩

theorem reachability_analysisH_eq (h : Marking → Nat) (B fuel : Nat)
    (net : PetriNet) :
    reachability_analysisH h B fuel net =
      if (runAnalysis (hashTable h B) (List.replicate B [])
          fuel net).queue = []
      then some ⟨(runAnalysis (hashTable h B) (List.replicate B [])
          fuel net).rows,
        (runAnalysis (hashTable h B) (List.replicate B [])
          fuel net).boundedness,
        (runAnalysis (hashTable h B) (List.replicate B [])
          fuel net).liveness⟩
      else none := rfl

/-- Claim C9: the analysis is deterministic - its result does not depend
on the hash function (hence not on the random HashMap seed) or the bucket
count: any seeded run equals the reference run, so any two seeded runs
agree on MarkingId assignments, row order, continuation lists, and the
accumulators. -/
theorem claim9_determinism (h1 h2 : Marking → Nat) (B1 B2 fuel : Nat)
    (net : PetriNet) (hB1 : 0 < B1) (hB2 : 0 < B2) :
    reachability_analysisH h1 B1 fuel net = reachability_analysis fuel net ∧
    reachability_analysisH h1 B1 fuel net
      = reachability_analysisH h2 B2 fuel net := by
  have key : ∀ (h : Marking → Nat) (B : Nat), 0 < B →
      reachability_analysisH h B fuel net
        = reachability_analysis fuel net := by
    intro h B hB
    obtain ⟨rq, rrows, rb, rl⟩ := runAnalysis_sim h B hB fuel net
    rw [reachability_analysisH_eq, reachability_analysis_eq,
      rq, rrows, rb, rl]
  exact ⟨key h1 B1 hB1, (key h1 B1 hB1).trans (key h2 B2 hB2).symm⟩

/-- Witness for claim C9 at a concrete net and two concrete hashes. -/
theorem claim9_determinism_witness :
    (0 < 4 ∧ 0 < 8) ∧
    reachability_analysisH hf1 4 2 netW3 = reachability_analysis 2 netW3 ∧
    reachability_analysisH hf1 4 2 netW3
      = reachability_analysisH hf2 8 2 netW3 :=
  ⟨⟨by decide, by decide⟩,
    claim9_determinism hf1 hf2 4 8 2 netW3 (by decide) (by decide)⟩
